import Mathlib

/-!
Shallow embedding of the movie recommendation engine of
`recommendation_engine.py`, used to check the natural-language
specification against the code.

Modelling conventions:
* pandas DataFrames become lists of records (`Movie`, `Rating`);
* floating point arithmetic is modelled exactly: rating data is `ℚ`,
  TF-IDF / cosine-similarity quantities (which involve `log` and square
  roots) live in `ℝ`;
* Python `sorted` and `pandas.DataFrame.sort_values` are modelled by a
  stable insertion sort (`sortDescBy` / `sortAscBy`); `sort_values`
  actually uses an unstable quicksort, so tie order among equal keys is
  implementation defined there — no claim below depends on it;
* a Python dict keyed by movie id (`hybrid_scores`) becomes an
  association list that preserves insertion order (`upsert`);
* `groupby` / `pivot_table` index and column labels are the sorted
  distinct key values (`sortedDedup`), as in pandas.
-/

namespace RecEngine

/-- Movie record: one row of `movies_df` (columns movieId, title, genres, year). -/
structure Movie where
  movieId : Int
  title : String
  genres : String
  year : Int
deriving DecidableEq, Repr

/-- Rating record: one row of `ratings_df` (columns userId, movieId, rating, timestamp). -/
structure Rating where
  userId : Int
  movieId : Int
  rating : ℚ
  timestamp : Int
deriving DecidableEq, Repr

/-- Default movie used only to totalize positional indexing (indices are always in range). -/
def mvDefault : Movie := ⟨0, "", "", 0⟩

/-- Insert `x` into a list sorted descending by `key`, before the first
element whose key is `≤ key x`. Together with `sortDescBy` this models
Python `sorted(..., reverse=True)`, which is stable. -/
def insertDescBy {α K : Type} [LinearOrder K] (key : α → K) (x : α) : List α → List α
  | [] => [x]
  | y :: ys => if key y ≤ key x then x :: y :: ys else y :: insertDescBy key x ys

/-- Stable descending insertion sort, modelling Python `sorted(..., reverse=True)`. -/
def sortDescBy {α K : Type} [LinearOrder K] (key : α → K) : List α → List α
  | [] => []
  | x :: xs => insertDescBy key x (sortDescBy key xs)

/-- Insert `x` into a list sorted ascending by `key`, before the first
element whose key is `≥ key x` (stable). -/
def insertAscBy {α K : Type} [LinearOrder K] (key : α → K) (x : α) : List α → List α
  | [] => [x]
  | y :: ys => if key x ≤ key y then x :: y :: ys else y :: insertAscBy key x ys

/-- Stable ascending insertion sort, modelling an ascending `sorted`. -/
def sortAscBy {α K : Type} [LinearOrder K] (key : α → K) : List α → List α
  | [] => []
  | x :: xs => insertAscBy key x (sortAscBy key xs)

/-- Python dict update `d[k] = d.get(k, 0) + v`: an existing key keeps its
position and accumulates, a fresh key is appended (dicts preserve insertion
order). -/
def upsert {V : Type} [Add V] (d : List (Int × V)) (k : Int) (v : V) : List (Int × V) :=
  match d with
  | [] => [(k, v)]
  | p :: rest => if p.1 = k then (p.1, p.2 + v) :: rest else p :: upsert rest k v

/-- Model of `DataFrame.drop_duplicates(subset=[key])`: keep the first
occurrence of every key, preserving order. -/
def dedupByKey {α β : Type} [DecidableEq β] (key : α → β) : List α → List α
  | [] => []
  | x :: xs => x :: dedupByKey key (xs.filter (fun y => decide (key y ≠ key x)))
termination_by l => l.length
decreasing_by
  simp only [List.length_cons]
  exact Nat.lt_succ_of_le (List.length_filter_le _ _)

/-- Sorted distinct values of a list of labels, as pandas uses for
`groupby` group keys and `pivot_table` index/columns. -/
def sortedDedup (l : List Int) : List Int := sortAscBy id l.dedup

/-- Word characters of the regex class `\w` used by the sklearn default
`token_pattern` `(?u)\b\w\w+\b` (ASCII data in this repository). -/
def isWordChar (c : Char) : Bool := c.isAlphanum || c = '_'

/-- One step of splitting a character list into maximal word-character runs. -/
def runsAux (c : Char) (p : List Char × List (List Char)) : List Char × List (List Char) :=
  if isWordChar c then (c :: p.1, p.2)
  else ([], if p.1 = [] then p.2 else p.1 :: p.2)

/-- Maximal runs of word characters in a character list, left to right. -/
def wordRuns (cs : List Char) : List (List Char) :=
  let p := cs.foldr runsAux ([], [])
  if p.1 = [] then p.2 else p.1 :: p.2

/-- The sklearn `ENGLISH_STOP_WORDS` list selected by
`TfidfVectorizer(stop_words=..english..)`. -/
def englishStopWords : List String :=
  ["a", "about", "above", "across", "after", "afterwards", "again", "against",
   "all", "almost", "alone", "along", "already", "also", "although", "always",
   "am", "among", "amongst", "amoungst", "amount", "an", "and", "another",
   "any", "anyhow", "anyone", "anything", "anyway", "anywhere", "are", "around",
   "as", "at", "back", "be", "became", "because", "become", "becomes",
   "becoming", "been", "before", "beforehand", "behind", "being", "below",
   "beside", "besides", "between", "beyond", "bill", "both", "bottom", "but",
   "by", "call", "can", "cannot", "cant", "co", "con", "could", "couldnt",
   "cry", "de", "describe", "detail", "do", "done", "down", "due", "during",
   "each", "eg", "eight", "either", "eleven", "else", "elsewhere", "empty",
   "enough", "etc", "even", "ever", "every", "everyone", "everything",
   "everywhere", "except", "few", "fifteen", "fifty", "fill", "find", "fire",
   "first", "five", "for", "former", "formerly", "forty", "found", "four",
   "from", "front", "full", "further", "get", "give", "go", "had", "has",
   "hasnt", "have", "he", "hence", "her", "here", "hereafter", "hereby",
   "herein", "hereupon", "hers", "herself", "him", "himself", "his", "how",
   "however", "hundred", "i", "ie", "if", "in", "inc", "indeed", "interest",
   "into", "is", "it", "its", "itself", "keep", "last", "latter", "latterly",
   "least", "less", "ltd", "made", "many", "may", "me", "meanwhile", "might",
   "mill", "mine", "more", "moreover", "most", "mostly", "move", "much",
   "must", "my", "myself", "name", "namely", "neither", "never",
   "nevertheless", "next", "nine", "no", "nobody", "none", "noone", "nor",
   "not", "nothing", "now", "nowhere", "of", "off", "often", "on", "once",
   "one", "only", "onto", "or", "other", "others", "otherwise", "our", "ours",
   "ourselves", "out", "over", "own", "part", "per", "perhaps", "please",
   "put", "rather", "re", "same", "see", "seem", "seemed", "seeming", "seems",
   "serious", "several", "she", "should", "show", "side", "since", "sincere",
   "six", "sixty", "so", "some", "somehow", "someone", "something",
   "sometime", "sometimes", "somewhere", "still", "such", "system", "take",
   "ten", "than", "that", "the", "their", "them", "themselves", "then",
   "thence", "there", "thereafter", "thereby", "therefore", "therein",
   "thereupon", "these", "they", "thick", "thin", "third", "this", "those",
   "though", "three", "through", "throughout", "thru", "thus", "to",
   "together", "too", "top", "toward", "towards", "twelve", "twenty", "two",
   "un", "under", "until", "up", "upon", "us", "very", "via", "was", "we",
   "well", "were", "what", "whatever", "when", "whence", "whenever", "where",
   "whereafter", "whereas", "whereby", "wherein", "whereupon", "wherever",
   "whether", "which", "while", "whither", "who", "whoever", "whole", "whom",
   "whose", "why", "will", "with", "within", "without", "would", "yet", "you",
   "your", "yours", "yourself", "yourselves"]

/-- Tokenization performed by `TfidfVectorizer(stop_words=..english..)` on a
genre string: lowercase, split into word-character runs of length at least
two, drop English stop words. -/
def tokenize (s : String) : List String :=
  ((wordRuns (s.toList.map Char.toLower)).map (fun cs => String.mk cs)).filter
    (fun t => decide (2 ≤ t.length) && decide (t ∉ englishStopWords))

/-- Term frequency: raw count of token `t` in a token list (sklearn default). -/
def tf (toks : List String) (t : String) : ℕ := toks.count t

/-- Document frequency of token `t` across the catalog. -/
def documentFrequency (ms : List Movie) (t : String) : ℕ :=
  (ms.filter (fun m => decide (t ∈ tokenize m.genres))).length

/-- Vocabulary: the distinct tokens appearing across all genre strings. -/
def vocab (ms : List Movie) : List String :=
  (ms.flatMap (fun m => tokenize m.genres)).dedup

/-- Smoothed idf used by `TfidfVectorizer` defaults:
`ln((1 + n_docs) / (1 + df)) + 1`. -/
noncomputable def idf (ms : List Movie) (t : String) : ℝ :=
  Real.log ((1 + ms.length) / (1 + documentFrequency ms t)) + 1

/-- Unnormalized tf-idf weight of token `t` for a document with tokens `toks`. -/
noncomputable def wt (ms : List Movie) (toks : List String) (t : String) : ℝ :=
  (tf toks t : ℝ) * idf ms t

/-- Dot product of two documents' tf-idf weight vectors over the vocabulary. -/
noncomputable def dotT (ms : List Movie) (a b : List String) : ℝ :=
  ((vocab ms).map (fun t => wt ms a t * wt ms b t)).sum

/-- Cosine similarity from a dot product `d` and the two squared norms.
sklearn `cosine_similarity` L2-normalizes rows, leaving all-zero rows as
zero, so a pair involving a zero vector gets similarity `0`. -/
noncomputable def cosineSim (d n1 n2 : ℝ) : ℝ :=
  if n1 = 0 ∨ n2 = 0 then 0 else d / (Real.sqrt n1 * Real.sqrt n2)

/-- Token list of the catalog row at position `i`. -/
def toksAt (ms : List Movie) (i : ℕ) : List String :=
  tokenize ((ms.getD i mvDefault).genres)

/-- Entry `(i, j)` of `content_similarity_matrix`
(`cosine_similarity(tfidf_matrix)` in `_prepare_content_features`). -/
noncomputable def simIdx (ms : List Movie) (i j : ℕ) : ℝ :=
  cosineSim (dotT ms (toksAt ms i) (toksAt ms j))
    (dotT ms (toksAt ms i) (toksAt ms i))
    (dotT ms (toksAt ms j) (toksAt ms j))

/-- Row labels of `user_item_matrix` (`pivot_table(index=..userId..)`):
sorted distinct user ids occurring in the ratings. -/
def userIds (rs : List Rating) : List Int := sortedDedup (rs.map (fun r => r.userId))

/-- Column labels of `user_item_matrix` (`pivot_table(columns=..movieId..)`):
sorted distinct movie ids occurring in the ratings. -/
def movieCols (rs : List Rating) : List Int := sortedDedup (rs.map (fun r => r.movieId))

/-- The rating values user `u` gave to movie `m`. -/
def userRatingsFor (rs : List Rating) (u m : Int) : List ℚ :=
  (rs.filter (fun r => decide (r.userId = u ∧ r.movieId = m))).map (fun r => r.rating)

/-- Entry of `user_item_matrix`: `pivot_table(values=..rating.., fill_value=0)`
with the default aggregator `mean`; `0` where the user has no rating. -/
def uiVal (rs : List Rating) (u m : Int) : ℚ :=
  if userRatingsFor rs u m = [] then 0
  else (userRatingsFor rs u m).sum / (userRatingsFor rs u m).length

/-- Rating values of all rows for movie `m` (one `groupby(..movieId..)` group). -/
def groupRatings (rs : List Rating) (m : Int) : List ℚ :=
  (rs.filter (fun r => decide (r.movieId = m))).map (fun r => r.rating)

/-- Group size `count` in `_get_popular_movies`. -/
def groupCount (rs : List Rating) (m : Int) : ℕ := (groupRatings rs m).length

/-- Group `mean` in `_get_popular_movies` (groups it is used on are nonempty). -/
def groupMean (rs : List Rating) (m : Int) : ℚ :=
  if groupRatings rs m = [] then 0
  else (groupRatings rs m).sum / (groupRatings rs m).length

/-- The movie ids whose rating group passes the `count >= 10` filter of
`_get_popular_movies`, in `groupby` (ascending id) order. -/
def qualifyingIds (rs : List Rating) : List Int :=
  (movieCols rs).filter (fun m => decide (10 ≤ groupCount rs m))

/-- Exact-arithmetic core of `_get_popular_movies(n)`: group ratings by
movieId, keep groups with at least 10 ratings, inner-merge with the catalog
(left order preserved), sort by mean descending, score `mean / 5.0`, head `n`. -/
def popularQ (ms : List Movie) (rs : List Rating) (n : ℕ) : List (Movie × ℚ) :=
  let merged := (qualifyingIds rs).flatMap (fun m =>
    (ms.filter (fun mv => decide (mv.movieId = m))).map (fun mv => (mv, groupMean rs m)))
  ((sortDescBy (fun p => p.2) merged).map (fun p => (p.1, p.2 / 5))).take n

/-- The engine's `_get_popular_movies(n)`, with scores seen as reals so that
its rows mix with similarity-scored rows exactly as in the code. -/
noncomputable def get_popular_movies (ms : List Movie) (rs : List Rating) (n : ℕ) :
    List (Movie × ℝ) :=
  (popularQ ms rs n).map (fun p => (p.1, (p.2 : ℝ)))

/-- The engine's `content_based_recommendations(movie_id, n)`.
The first matching positional index plays `movies_df[...].index[0]`; an
absent id (`IndexError`) falls back to `_get_popular_movies`. The stable
descending sort of `(index, similarity)` pairs drops its first element
(`[1:n+1]`), whatever that element is. -/
noncomputable def content_based_recommendations (ms : List Movie) (rs : List Rating)
    (movie_id : Int) (n : ℕ) : List (Movie × ℝ) :=
  match ms.findIdx? (fun mv => mv.movieId = movie_id) with
  | none => get_popular_movies ms rs n
  | some i =>
    let scored := (List.range ms.length).map (fun j => (j, simIdx ms i j))
    let chosen := ((sortDescBy (fun p => p.2) scored).drop 1).take n
    chosen.map (fun p => (ms.getD p.1 mvDefault, p.2))

/-- Dot product of the `user_item_matrix` columns of movies `m1` and `m2`
(vectors over all users). -/
def colDot (rs : List Rating) (m1 m2 : Int) : ℚ :=
  ((userIds rs).map (fun u => uiVal rs u m1 * uiVal rs u m2)).sum

/-- Cosine similarity of two movie columns of the user-item matrix, as used
by the KNN model (`metric=..cosine..`); sklearn treats a zero column as
similarity `0` (distance `1`). -/
noncomputable def collabSim (rs : List Rating) (m1 m2 : Int) : ℝ :=
  cosineSim ((colDot rs m1 m2 : ℚ) : ℝ) ((colDot rs m1 m1 : ℚ) : ℝ) ((colDot rs m2 m2 : ℚ) : ℝ)

/-- One seed movie's block of `collaborative_filtering_recommendations`:
`kneighbors` over all columns with `n_neighbors = min(n+1, n_cols)` returns
the nearest columns by cosine distance (modelled by a stable ascending sort;
numpy argsort tie order is implementation defined), the first entry is
dropped (`[1:]`), distances become similarities `1 - d`, and each remaining
id is looked up in the catalog and skipped when absent. -/
noncomputable def neighborBlock (ms : List Movie) (rs : List Rating) (mid : Int) (n : ℕ) :
    List (Movie × ℝ) :=
  let cols := movieCols rs
  let scored := cols.map (fun c => (c, 1 - collabSim rs mid c))
  let nearest := (sortAscBy (fun p => p.2) scored).take (min (n + 1) cols.length)
  (nearest.drop 1).filterMap (fun p =>
    (ms.find? (fun mv => mv.movieId = p.1)).map (fun mv => (mv, 1 - p.2)))

/-- The engine's `collaborative_filtering_recommendations(movie_ids, n)`:
pool neighbor blocks of the seed ids present among the matrix columns,
deduplicate by movieId (first kept), sort by similarity descending, head `n`;
an empty pool falls back to `_get_popular_movies(n)`. -/
noncomputable def pooledNeighbors (ms : List Movie) (rs : List Rating)
    (movie_ids : List Int) (n : ℕ) : List (Movie × ℝ) :=
  movie_ids.flatMap (fun mid =>
    if mid ∈ movieCols rs then neighborBlock ms rs mid n else [])

/-- Continuation of `collaborative_filtering_recommendations` after pooling. -/
noncomputable def collaborative_filtering_recommendations (ms : List Movie) (rs : List Rating)
    (movie_ids : List Int) (n : ℕ) : List (Movie × ℝ) :=
  if pooledNeighbors ms rs movie_ids n = [] then get_popular_movies ms rs n
  else (sortDescBy (fun p => p.2)
    (dedupByKey (fun p => p.1.movieId) (pooledNeighbors ms rs movie_ids n))).take n

/-- The engine's `hybrid_recommendations(movie_ids, n, content_weight,
collab_weight)`: weighted accumulation of the two sub-results into an
insertion-ordered dict, stable sort by combined score, top `n`, then catalog
lookup of each id (the stored score is the dict value of that id); an empty
result list falls back to `_get_popular_movies(n)`. -/
noncomputable def hybridContentDict (ms : List Movie) (rs : List Rating)
    (movie_ids : List Int) (n : ℕ) (content_weight : ℝ) : List (Int × ℝ) :=
  match movie_ids with
  | [] => []
  | m0 :: _ =>
    (content_based_recommendations ms rs m0 (n * 2)).foldl
      (fun d p => upsert d p.1.movieId (content_weight * p.2)) []

/-- The `hybrid_scores` dict after both accumulation phases. -/
noncomputable def hybridDict (ms : List Movie) (rs : List Rating)
    (movie_ids : List Int) (n : ℕ) (content_weight collab_weight : ℝ) : List (Int × ℝ) :=
  if collaborative_filtering_recommendations ms rs movie_ids (n * 2) = []
  then hybridContentDict ms rs movie_ids n content_weight
  else (collaborative_filtering_recommendations ms rs movie_ids (n * 2)).foldl
    (fun d p => upsert d p.1.movieId (collab_weight * p.2))
    (hybridContentDict ms rs movie_ids n content_weight)

/-- The recommendation rows of `hybrid_recommendations` before the final
empty-result fallback: stable sort of the dict by combined score, top `n`,
catalog lookup of each id (the stored score is the dict value of that id). -/
noncomputable def hybridRows (ms : List Movie) (rs : List Rating)
    (movie_ids : List Int) (n : ℕ) (content_weight collab_weight : ℝ) :
    List (Movie × ℝ) :=
  ((sortDescBy (fun q => q.2)
      (hybridDict ms rs movie_ids n content_weight collab_weight)).take n).filterMap
    (fun q => (ms.find? (fun mv => mv.movieId = q.1)).map (fun mv => (mv, q.2)))

noncomputable def hybrid_recommendations (ms : List Movie) (rs : List Rating)
    (movie_ids : List Int) (n : ℕ) (content_weight collab_weight : ℝ) :
    List (Movie × ℝ) :=
  if hybridRows ms rs movie_ids n content_weight collab_weight = []
  then get_popular_movies ms rs n
  else hybridRows ms rs movie_ids n content_weight collab_weight

/-- The movies user `u` has `user_item_matrix` value at least 4.0 for
(`user_ratings[user_ratings >= 4.0].index.tolist()`), in column order. -/
def highOf (rs : List Rating) (u : Int) : List Int :=
  (movieCols rs).filter (fun m => decide (4 ≤ uiVal rs u m))

/-- The engine's `get_user_recommendations(user_id, n)`: unknown users fall
back to popularity; otherwise the movies the user rated at least 4.0 seed
collaborative filtering, and popularity is used when there are none. -/
noncomputable def get_user_recommendations (ms : List Movie) (rs : List Rating)
    (user_id : Int) (n : ℕ) : List (Movie × ℝ) :=
  if user_id ∈ userIds rs then
    if highOf rs user_id = [] then get_popular_movies ms rs n
    else collaborative_filtering_recommendations ms rs (highOf rs user_id) n
  else get_popular_movies ms rs n

/-- The constructed engine state: defensive copies of the two tables (all
derived structures are pure functions of them). -/
structure Engine where
  movies : List Movie
  ratings : List Rating
deriving DecidableEq, Repr

/-- Engine construction (`RecommendationEngine.__init__`). The constructor
performs no validation of its own; the only failing path is
`TfidfVectorizer.fit_transform` raising `ValueError` on an empty vocabulary
(empty catalog, or no genre token surviving tokenization). -/
def construct (ms : List Movie) (rs : List Rating) : Except String Engine :=
  if vocab ms = [] then Except.error "empty vocabulary" else Except.ok ⟨ms, rs⟩

/-! Concrete data used to exercise the engine on explicit inputs:
a three-movie catalog with a duplicated genre vector, a catalog with a
duplicate id, a catalog with an empty genre string, and a rating table
giving movie 1 ten 5.0 ratings from ten users. -/

def mvA : Movie := ⟨1, "A", "Drama", 2000⟩

def mvB : Movie := ⟨2, "B", "Drama", 2000⟩

def mvC : Movie := ⟨3, "C", "Comedy", 2000⟩

def catalog3 : List Movie := [mvA, mvB, mvC]

def catalogDup : List Movie := [⟨1, "A", "Drama", 2000⟩, ⟨1, "B", "Drama", 2000⟩]

def catalogE : List Movie := [⟨1, "A", "Drama", 2000⟩, ⟨2, "B", "", 2000⟩]

def ratings10 : List Rating := (List.range 10).map (fun i => ⟨(i : Int) + 1, 1, 5, 0⟩)

/-! Lemmas about the stable sorts. -/

theorem length_insertDescBy {α K : Type} [LinearOrder K] (key : α → K) (x : α) (l : List α) :
    (insertDescBy key x l).length = l.length + 1 := by
  induction l with
  | nil => rfl
  | cons y ys ih =>
    simp only [insertDescBy]
    split <;> simp [ih]

theorem length_sortDescBy {α K : Type} [LinearOrder K] (key : α → K) (l : List α) :
    (sortDescBy key l).length = l.length := by
  induction l with
  | nil => rfl
  | cons x xs ih => simp [sortDescBy, length_insertDescBy, ih]

theorem sortDescBy_nil {α K : Type} [LinearOrder K] (key : α → K) :
    sortDescBy key ([] : List α) = [] := rfl

theorem perm_insertDescBy {α K : Type} [LinearOrder K] (key : α → K) (x : α) (l : List α) :
    (insertDescBy key x l).Perm (x :: l) := by
  induction l with
  | nil => exact List.Perm.refl _
  | cons y ys ih =>
    simp only [insertDescBy]
    split
    · exact List.Perm.refl _
    · exact (ih.cons y).trans (List.Perm.swap x y ys)

theorem perm_sortDescBy {α K : Type} [LinearOrder K] (key : α → K) (l : List α) :
    (sortDescBy key l).Perm l := by
  induction l with
  | nil => exact List.Perm.refl _
  | cons x xs ih => exact (perm_insertDescBy key x _).trans (ih.cons x)

theorem mem_sortDescBy {α K : Type} [LinearOrder K] {key : α → K} {l : List α} {x : α} :
    x ∈ sortDescBy key l ↔ x ∈ l := (perm_sortDescBy key l).mem_iff

theorem sorted_insertDescBy {α K : Type} [LinearOrder K] {key : α → K} (x : α) {l : List α}
    (h : l.Sorted (fun a b => key b ≤ key a)) :
    (insertDescBy key x l).Sorted (fun a b => key b ≤ key a) := by
  induction l with
  | nil => simp [insertDescBy]
  | cons y ys ih =>
    rw [List.sorted_cons] at h
    simp only [insertDescBy]
    split
    · rename_i hle
      rw [List.sorted_cons]
      refine ⟨?_, by rw [List.sorted_cons]; exact h⟩
      intro b hb
      rcases List.mem_cons.mp hb with hb | hb
      · simpa [hb] using hle
      · exact le_trans (h.1 b hb) hle
    · rename_i hgt
      push_neg at hgt
      rw [List.sorted_cons]
      refine ⟨?_, ih h.2⟩
      intro b hb
      rcases List.mem_cons.mp ((perm_insertDescBy key x ys).mem_iff.mp hb) with hb | hb
      · subst hb; exact le_of_lt hgt
      · exact h.1 b hb

theorem sorted_sortDescBy {α K : Type} [LinearOrder K] (key : α → K) (l : List α) :
    (sortDescBy key l).Sorted (fun a b => key b ≤ key a) := by
  induction l with
  | nil => simp [sortDescBy]
  | cons x xs ih => exact sorted_insertDescBy x ih

theorem sortDescBy_eq_self {α K : Type} [LinearOrder K] {key : α → K} {l : List α}
    (h : l.Sorted (fun a b => key b ≤ key a)) : sortDescBy key l = l := by
  induction l with
  | nil => rfl
  | cons x xs ih =>
    rw [List.sorted_cons] at h
    rw [sortDescBy, ih h.2]
    cases xs with
    | nil => rfl
    | cons y ys => simp [insertDescBy, h.1 y (by simp)]

theorem insertDescBy_append {α K : Type} [LinearOrder K] {key : α → K} {x : α} (s : List α)
    {l2 : List α} (h : ∀ y ∈ l2, key y ≤ key x) :
    insertDescBy key x (s ++ l2) = insertDescBy key x s ++ l2 := by
  induction s with
  | nil =>
    cases l2 with
    | nil => rfl
    | cons y ys => simp [insertDescBy, h y (by simp)]
  | cons z zs ih =>
    simp only [List.cons_append, insertDescBy]
    split <;> simp [ih]

theorem sortDescBy_append_const {α K : Type} [LinearOrder K] {key : α → K} {l1 l2 : List α}
    {c : K} (h2 : ∀ y ∈ l2, key y = c) (h1 : ∀ x ∈ l1, c ≤ key x) :
    sortDescBy key (l1 ++ l2) = sortDescBy key l1 ++ l2 := by
  induction l1 with
  | nil =>
    simp only [List.nil_append, sortDescBy]
    exact sortDescBy_eq_self (List.pairwise_iff_forall_sublist.mpr (by
      intro a b hab
      have ha := h2 a (hab.subset (by simp))
      have hb := h2 b (hab.subset (by simp))
      simp [ha, hb]))
  | cons x xs ih =>
    have hx : ∀ y ∈ l2, key y ≤ key x := fun y hy => (h2 y hy).le.trans (h1 x (by simp))
    simp only [List.cons_append, sortDescBy, List.append_eq]
    rw [ih (fun a ha => h1 a (by simp [ha])), insertDescBy_append _ hx]

theorem length_insertAscBy {α K : Type} [LinearOrder K] (key : α → K) (x : α) (l : List α) :
    (insertAscBy key x l).length = l.length + 1 := by
  induction l with
  | nil => rfl
  | cons y ys ih =>
    simp only [insertAscBy]
    split <;> simp [ih]

theorem perm_insertAscBy {α K : Type} [LinearOrder K] (key : α → K) (x : α) (l : List α) :
    (insertAscBy key x l).Perm (x :: l) := by
  induction l with
  | nil => exact List.Perm.refl _
  | cons y ys ih =>
    simp only [insertAscBy]
    split
    · exact List.Perm.refl _
    · exact (ih.cons y).trans (List.Perm.swap x y ys)

theorem perm_sortAscBy {α K : Type} [LinearOrder K] (key : α → K) (l : List α) :
    (sortAscBy key l).Perm l := by
  induction l with
  | nil => exact List.Perm.refl _
  | cons x xs ih => exact (perm_insertAscBy key x _).trans (ih.cons x)

theorem mem_sortAscBy {α K : Type} [LinearOrder K] {key : α → K} {l : List α} {x : α} :
    x ∈ sortAscBy key l ↔ x ∈ l := (perm_sortAscBy key l).mem_iff

theorem mem_sortedDedup {l : List Int} {m : Int} : m ∈ sortedDedup l ↔ m ∈ l := by
  rw [sortedDedup, mem_sortAscBy, List.mem_dedup]

theorem nodup_sortedDedup (l : List Int) : (sortedDedup l).Nodup :=
  ((perm_sortAscBy id l.dedup).nodup_iff).mpr l.nodup_dedup

/-! Lemmas about `upsert` and `dedupByKey`. -/

theorem upsert_of_not_mem {V : Type} [Add V] {d : List (Int × V)} {k : Int} (v : V)
    (h : k ∉ d.map Prod.fst) : upsert d k v = d ++ [(k, v)] := by
  induction d with
  | nil => rfl
  | cons p rest ih =>
    simp only [List.map_cons, List.mem_cons] at h
    push_neg at h
    simp only [upsert, if_neg (Ne.symm h.1)]
    rw [ih h.2, List.cons_append]

theorem upsert_zero_of_mem {V : Type} [AddZeroClass V] {d : List (Int × V)} {k : Int}
    (h : k ∈ d.map Prod.fst) : upsert d k 0 = d := by
  induction d with
  | nil => simp at h
  | cons p rest ih =>
    by_cases hk : p.1 = k
    · simp only [upsert, if_pos hk, add_zero]
    · simp only [List.map_cons, List.mem_cons] at h
      rcases h with h | h
      · exact absurd h.symm hk
      · simp [upsert, hk, ih h]

theorem mem_upsert {V : Type} [Add V] {d : List (Int × V)} {k : Int} {v : V} {q : Int × V}
    (h : q ∈ upsert d k v) :
    q ∈ d ∨ (∃ p ∈ d, p.1 = k ∧ q = (p.1, p.2 + v)) ∨ q = (k, v) := by
  induction d with
  | nil => simp only [upsert, List.mem_singleton] at h; tauto
  | cons p rest ih =>
    simp only [upsert] at h
    split at h
    · rcases List.mem_cons.mp h with h | h
      · exact Or.inr (Or.inl ⟨p, by simp, by assumption, h⟩)
      · exact Or.inl (List.mem_cons.mpr (Or.inr h))
    · rcases List.mem_cons.mp h with h | h
      · exact Or.inl (by simp [h])
      · rcases ih h with h | h | h
        · exact Or.inl (by simp [h])
        · obtain ⟨p', hp', hk, hq⟩ := h
          exact Or.inr (Or.inl ⟨p', by simp [hp'], hk, hq⟩)
        · exact Or.inr (Or.inr h)

theorem sublist_dedupByKey {α β : Type} [DecidableEq β] (key : α → β) (l : List α) :
    (dedupByKey key l).Sublist l := by
  induction l using dedupByKey.induct key with
  | case1 => rw [dedupByKey]
  | case2 x xs ih =>
    rw [dedupByKey]
    exact (ih.trans (List.filter_sublist xs)).cons₂ x

theorem mem_of_mem_dedupByKey {α β : Type} [DecidableEq β] {key : α → β} {l : List α} {x : α}
    (h : x ∈ dedupByKey key l) : x ∈ l := (sublist_dedupByKey key l).subset h

theorem nodup_keys_dedupByKey {α β : Type} [DecidableEq β] (key : α → β) (l : List α) :
    ((dedupByKey key l).map key).Nodup := by
  induction l using dedupByKey.induct key with
  | case1 => simp [dedupByKey]
  | case2 x xs ih =>
    rw [dedupByKey]
    simp only [List.map_cons, List.nodup_cons]
    refine ⟨?_, ih⟩
    intro hmem
    obtain ⟨y, hy, hkey⟩ := List.mem_map.mp hmem
    have := List.of_mem_filter (mem_of_mem_dedupByKey hy)
    simp only [decide_eq_true_eq] at this
    exact this hkey

/-! Analytic lemmas about tf-idf cosine similarity. -/

theorem documentFrequency_le (ms : List Movie) (t : String) :
    documentFrequency ms t ≤ ms.length := List.length_filter_le _ _

theorem one_le_idf (ms : List Movie) (t : String) : 1 ≤ idf ms t := by
  have hdf : (documentFrequency ms t : ℝ) ≤ ms.length := by
    exact_mod_cast documentFrequency_le ms t
  have harg : (1 : ℝ) ≤ (1 + ms.length) / (1 + documentFrequency ms t) := by
    rw [le_div_iff₀ (by positivity)]
    linarith
  have := Real.log_nonneg harg
  unfold idf
  linarith

theorem idf_pos (ms : List Movie) (t : String) : 0 < idf ms t :=
  lt_of_lt_of_le one_pos (one_le_idf ms t)

theorem wt_nonneg (ms : List Movie) (toks : List String) (t : String) : 0 ≤ wt ms toks t :=
  mul_nonneg (by positivity) (idf_pos ms t).le

theorem dotT_nonneg (ms : List Movie) (a b : List String) : 0 ≤ dotT ms a b := by
  apply List.sum_nonneg
  intro x hx
  obtain ⟨t, _, rfl⟩ := List.mem_map.mp hx
  exact mul_nonneg (wt_nonneg ms a t) (wt_nonneg ms b t)

theorem dotT_comm (ms : List Movie) (a b : List String) : dotT ms a b = dotT ms b a := by
  unfold dotT
  congr 1
  exact List.map_congr_left (fun t _ => mul_comm _ _)

theorem dotT_eq_finset_sum (ms : List Movie) (a b : List String) :
    dotT ms a b = ∑ t ∈ (vocab ms).toFinset, wt ms a t * wt ms b t :=
  (List.sum_toFinset _ ((ms.flatMap (fun m => tokenize m.genres)).nodup_dedup)).symm

/-- Cauchy-Schwarz for the tf-idf weight vectors. -/
theorem dotT_le_sqrt_mul_sqrt (ms : List Movie) (a b : List String) :
    dotT ms a b ≤ Real.sqrt (dotT ms a a) * Real.sqrt (dotT ms b b) := by
  rw [dotT_eq_finset_sum ms a b, dotT_eq_finset_sum ms a a, dotT_eq_finset_sum ms b b]
  have h := Real.sum_mul_le_sqrt_mul_sqrt ((vocab ms).toFinset)
    (fun t => wt ms a t) (fun t => wt ms b t)
  calc ∑ t ∈ (vocab ms).toFinset, wt ms a t * wt ms b t
      ≤ Real.sqrt (∑ t ∈ (vocab ms).toFinset, wt ms a t ^ 2) *
        Real.sqrt (∑ t ∈ (vocab ms).toFinset, wt ms b t ^ 2) := h
    _ = _ := by
        congr 1 <;> · congr 1; refine Finset.sum_congr rfl (fun t _ => ?_); ring

theorem cosineSim_nonneg {d n1 n2 : ℝ} (hd : 0 ≤ d) : 0 ≤ cosineSim d n1 n2 := by
  unfold cosineSim
  split
  · exact le_refl 0
  · positivity

theorem cosineSim_le_one {d n1 n2 : ℝ} (h1 : 0 ≤ n1) (h2 : 0 ≤ n2)
    (hcs : d ≤ Real.sqrt n1 * Real.sqrt n2) : cosineSim d n1 n2 ≤ 1 := by
  unfold cosineSim
  split
  · exact zero_le_one
  · rename_i hne
    push_neg at hne
    have hp1 : 0 < n1 := lt_of_le_of_ne h1 (Ne.symm hne.1)
    have hp2 : 0 < n2 := lt_of_le_of_ne h2 (Ne.symm hne.2)
    rw [div_le_one (by positivity)]
    simpa using hcs

theorem cosineSim_self {nn : ℝ} (h : 0 < nn) : cosineSim nn nn nn = 1 := by
  unfold cosineSim
  rw [if_neg (by push_neg; exact ⟨ne_of_gt h, ne_of_gt h⟩)]
  rw [Real.mul_self_sqrt h.le]
  exact div_self (ne_of_gt h)

theorem cosineSim_of_dot_zero {n1 n2 : ℝ} : cosineSim 0 n1 n2 = 0 := by
  unfold cosineSim
  split
  · rfl
  · exact zero_div _

theorem cosineSim_symm_norms (d n1 n2 : ℝ) : cosineSim d n1 n2 = cosineSim d n2 n1 := by
  unfold cosineSim
  by_cases h : n1 = 0 ∨ n2 = 0
  · rw [if_pos h, if_pos h.symm]
  · rw [if_neg h, if_neg (fun hh => h hh.symm), mul_comm]

/-- A token of a catalog movie belongs to the vocabulary. -/
theorem token_mem_vocab {ms : List Movie} {m : Movie} {t : String} (hm : m ∈ ms)
    (ht : t ∈ tokenize m.genres) : t ∈ vocab ms := by
  rw [vocab, List.mem_dedup, List.mem_flatMap]
  exact ⟨m, hm, ht⟩

/-- A document with no surviving token has a zero tf-idf vector. -/
theorem dotT_self_nil (ms : List Movie) : dotT ms [] [] = 0 := by
  unfold dotT
  apply List.sum_eq_zero
  intro x hx
  obtain ⟨t, _, rfl⟩ := List.mem_map.mp hx
  simp [wt, tf]

/-- A document with a surviving token (from a catalog movie) has a positive
squared norm. -/
theorem dotT_self_pos {ms : List Movie} {toks : List String} {t0 : String}
    (ht0 : t0 ∈ toks) (hv : t0 ∈ vocab ms) : 0 < dotT ms toks toks := by
  have hterm : 0 < wt ms toks t0 * wt ms toks t0 := by
    have htf : 0 < tf toks t0 := List.count_pos_iff.mpr ht0
    have : 0 < wt ms toks t0 := by
      apply mul_pos _ (idf_pos ms t0)
      exact_mod_cast htf
    exact mul_pos this this
  have hmem : wt ms toks t0 * wt ms toks t0 ∈
      (vocab ms).map (fun t => wt ms toks t * wt ms toks t) :=
    List.mem_map.mpr ⟨t0, hv, rfl⟩
  have hle := List.single_le_sum (l := (vocab ms).map (fun t => wt ms toks t * wt ms toks t))
    (fun x hx => by
      obtain ⟨t, _, rfl⟩ := List.mem_map.mp hx
      exact mul_nonneg (wt_nonneg ms toks t) (wt_nonneg ms toks t)) _ hmem
  exact lt_of_lt_of_le hterm hle

theorem simIdx_comm (ms : List Movie) (i j : ℕ) : simIdx ms i j = simIdx ms j i := by
  unfold simIdx
  rw [dotT_comm ms (toksAt ms i) (toksAt ms j), cosineSim_symm_norms]

theorem simIdx_nonneg (ms : List Movie) (i j : ℕ) : 0 ≤ simIdx ms i j :=
  cosineSim_nonneg (dotT_nonneg ms _ _)

theorem simIdx_le_one (ms : List Movie) (i j : ℕ) : simIdx ms i j ≤ 1 :=
  cosineSim_le_one (dotT_nonneg ms _ _) (dotT_nonneg ms _ _) (dotT_le_sqrt_mul_sqrt ms _ _)

theorem simIdx_self_of_token {ms : List Movie} {i : ℕ} (hi : i < ms.length)
    (hne : toksAt ms i ≠ []) : simIdx ms i i = 1 := by
  obtain ⟨t0, ht0⟩ := List.exists_mem_of_ne_nil _ hne
  have hv : t0 ∈ vocab ms := by
    have hmem : ms.getD i mvDefault ∈ ms := by
      rw [List.getD_eq_getElem ms mvDefault hi]
      exact List.getElem_mem hi
    exact token_mem_vocab hmem ht0
  exact cosineSim_self (dotT_self_pos ht0 hv)

theorem simIdx_self_of_nil {ms : List Movie} {i : ℕ} (hnil : toksAt ms i = []) :
    simIdx ms i i = 0 := by
  unfold simIdx
  rw [hnil, dotT_self_nil]
  simp [cosineSim]

/-! Claim C3: an unknown movie id makes `content_based_recommendations`
return exactly the popularity fallback. -/

/-- C3: for every movieId absent from the catalog and every n,
`content_based(movieId, n)` returns exactly the same ordered list (same
movies, same order, same scores) as `popular(n)`: the `IndexError` branch
returns `_get_popular_movies(n_recommendations)` unchanged. -/
theorem C3_unknown_id_returns_popular (ms : List Movie) (rs : List Rating) (movie_id : Int)
    (n : ℕ) (h : movie_id ∉ ms.map Movie.movieId) :
    content_based_recommendations ms rs movie_id n = get_popular_movies ms rs n := by
  unfold content_based_recommendations
  have hf : ms.findIdx? (fun mv => decide (mv.movieId = movie_id)) = none := by
    rw [List.findIdx?_eq_none_iff]
    intro x hx
    rw [decide_eq_false_iff_not]
    intro hq
    exact h (hq ▸ List.mem_map_of_mem Movie.movieId hx)
  simp only [hf]

/-- Witness for C3 at a concrete absent id. -/
theorem C3_witness :
    (999 : Int) ∉ catalog3.map Movie.movieId ∧
    content_based_recommendations catalog3 ratings10 999 5 =
      get_popular_movies catalog3 ratings10 5 :=
  ⟨by decide, C3_unknown_id_returns_popular catalog3 ratings10 999 5 (by decide)⟩

/-! Claim C10: result count of `content_based_recommendations` for a known id. -/

/-- C10: for every movieId present in the catalog and every n,
`content_based(movieId, n)` returns exactly `min n (|catalog| - 1)` rows:
the slice `[1:n+1]` of the sorted index list. -/
theorem C10_content_result_count (ms : List Movie) (rs : List Rating) (movie_id : Int)
    (n : ℕ) (h : movie_id ∈ ms.map Movie.movieId) :
    (content_based_recommendations ms rs movie_id n).length = min n (ms.length - 1) := by
  obtain ⟨mv, hmv, hid⟩ := List.mem_map.mp h
  unfold content_based_recommendations
  have hf : ms.findIdx? (fun mv => decide (mv.movieId = movie_id)) =
      some (ms.findIdx (fun mv => decide (mv.movieId = movie_id))) := by
    rw [List.findIdx?_eq_some_iff_findIdx_eq]
    exact ⟨List.findIdx_lt_length_of_exists ⟨mv, hmv, by simp [hid]⟩, rfl⟩
  simp only [hf, List.length_map, List.length_take, List.length_drop, length_sortDescBy,
    List.length_range]

/-- Witness for C10 at a concrete known id. -/
theorem C10_witness :
    (2 : Int) ∈ catalog3.map Movie.movieId ∧
    (content_based_recommendations catalog3 ratings10 2 2).length =
      min 2 (catalog3.length - 1) :=
  ⟨by decide, C10_content_result_count catalog3 ratings10 2 2 (by decide)⟩

/-! Claim C2: the spec asserts construction-time validation; the
constructor actually performs none. -/

/-- C2 counterexample: a catalog with a duplicate movie id together with an
empty rating table (the situation the claim says must fail with a
`ValidationError`) constructs successfully, and the resulting engine is
usable: its popularity query runs and returns the empty list. -/
theorem C2_counterexample_construct_succeeds :
    construct catalogDup [] = Except.ok ⟨catalogDup, []⟩ ∧
    get_popular_movies catalogDup [] 5 = [] := by
  constructor
  · unfold construct
    rw [if_neg (by decide)]
  · rfl

/-- C2 amended: engine construction never fails on duplicate catalog ids or
on an empty/filtered-to-empty rating table; it fails only when the genre
vocabulary is empty (the `TfidfVectorizer` fit raising `ValueError`). Any
catalog with a nonempty vocabulary yields an engine holding the two tables
unchanged, whatever the ratings. -/
theorem C2_construct_never_validates (ms : List Movie) (rs : List Rating)
    (h : vocab ms ≠ []) : construct ms rs = Except.ok ⟨ms, rs⟩ := by
  unfold construct
  rw [if_neg h]

/-- Witness for the amended C2 at a duplicate-id catalog and empty ratings. -/
theorem C2_witness :
    vocab catalogDup ≠ [] ∧ construct catalogDup [] = Except.ok ⟨catalogDup, []⟩ :=
  ⟨by decide, C2_construct_never_validates catalogDup [] (by decide)⟩

/-! Claim C4: properties of the content similarity matrix. Symmetry and the
range hold for every catalog; the diagonal is 1 only for movies whose genre
string still has a token after tokenization — an empty genre list gives a
zero tf-idf vector, and sklearn leaves zero rows at zero, so the diagonal
entry is 0 there, not 1. -/

/-- C4 counterexample: in a catalog whose second movie has an empty genre
string, the diagonal similarity entry of that movie is 0, not 1 as the
claim demands for empty genre lists as well. -/
theorem C4_counterexample_empty_genres_diagonal :
    simIdx catalogE 1 1 = 0 ∧ simIdx catalogE 1 1 ≠ 1 := by
  have h0 : simIdx catalogE 1 1 = 0 := simIdx_self_of_nil (by decide)
  exact ⟨h0, by rw [h0]; norm_num⟩

/-- C4 amended: for every catalog the content similarity matrix is
symmetric with all entries in the interval from 0 to 1, and the diagonal
entry of a movie is 1 when its genre string retains at least one token and
0 when it retains none (zero tf-idf vector). -/
theorem C4_similarity_matrix_properties (ms : List Movie) (i j : ℕ)
    (hi : i < ms.length) (hj : j < ms.length) :
    simIdx ms i j = simIdx ms j i ∧
    0 ≤ simIdx ms i j ∧ simIdx ms i j ≤ 1 ∧
    (toksAt ms i ≠ [] → simIdx ms i i = 1) ∧
    (toksAt ms i = [] → simIdx ms i i = 0) :=
  ⟨simIdx_comm ms i j, simIdx_nonneg ms i j, simIdx_le_one ms i j,
    fun hne => simIdx_self_of_token hi hne, fun hnil => simIdx_self_of_nil hnil⟩

/-- Witness for the amended C4 at a concrete catalog and index pair. -/
theorem C4_witness :
    (0 < catalog3.length ∧ 2 < catalog3.length) ∧
    (simIdx catalog3 0 2 = simIdx catalog3 2 0 ∧
      0 ≤ simIdx catalog3 0 2 ∧ simIdx catalog3 0 2 ≤ 1 ∧
      (toksAt catalog3 0 ≠ [] → simIdx catalog3 0 0 = 1) ∧
      (toksAt catalog3 0 = [] → simIdx catalog3 0 0 = 0)) :=
  ⟨⟨by decide, by decide⟩,
    C4_similarity_matrix_properties catalog3 0 2 (by decide) (by decide)⟩

/-! Lemmas about the popularity fallback. -/

theorem filter_movieId_eq_singleton {ms : List Movie} (hnodup : (ms.map Movie.movieId).Nodup)
    {mv : Movie} (hmv : mv ∈ ms) :
    ms.filter (fun x => decide (x.movieId = mv.movieId)) = [mv] := by
  induction ms with
  | nil => simp at hmv
  | cons y ys ih =>
    simp only [List.map_cons, List.nodup_cons] at hnodup
    rcases List.mem_cons.mp hmv with h | h
    · subst h
      rw [List.filter_cons_of_pos (by simp)]
      have hnil : ys.filter (fun x => decide (x.movieId = mv.movieId)) = [] := by
        rw [List.filter_eq_nil_iff]
        intro x hx
        simp only [decide_eq_true_eq]
        intro heq
        exact hnodup.1 (heq ▸ List.mem_map_of_mem Movie.movieId hx)
      rw [hnil]
    · have hne : ¬(y.movieId = mv.movieId) := by
        intro heq
        exact hnodup.1 (heq ▸ List.mem_map_of_mem Movie.movieId h)
      rw [List.filter_cons_of_neg (by simpa using hne)]
      exact ih hnodup.2 h

theorem groupRatings_mem {rs : List Rating} {m : Int} {x : ℚ} (hx : x ∈ groupRatings rs m) :
    ∃ r ∈ rs, r.rating = x := by
  obtain ⟨r, hr, rfl⟩ := List.mem_map.mp hx
  exact ⟨r, List.mem_of_mem_filter hr, rfl⟩

theorem groupMean_nonneg (rs : List Rating) (m : Int) (h : ∀ r ∈ rs, 0 ≤ r.rating) :
    0 ≤ groupMean rs m := by
  unfold groupMean
  split
  · exact le_refl 0
  · apply div_nonneg _ (by positivity)
    apply List.sum_nonneg
    intro x hx
    obtain ⟨r, hr, rfl⟩ := groupRatings_mem hx
    exact h r hr

theorem groupMean_le_five (rs : List Rating) (m : Int) (h : ∀ r ∈ rs, r.rating ≤ 5) :
    groupMean rs m ≤ 5 := by
  unfold groupMean
  split
  · norm_num
  · rename_i hne
    have hlen : (0 : ℚ) < (groupRatings rs m).length := by
      have := List.length_pos.mpr hne
      exact_mod_cast this
    rw [div_le_iff₀ hlen]
    have hsum := List.sum_le_card_nsmul (groupRatings rs m) 5 (by
      intro x hx
      obtain ⟨r, hr, rfl⟩ := groupRatings_mem hx
      exact h r hr)
    simpa [nsmul_eq_mul, mul_comm] using hsum

theorem mem_popularQ {ms : List Movie} {rs : List Rating} {n : ℕ} {p : Movie × ℚ}
    (h : p ∈ popularQ ms rs n) :
    p.1 ∈ ms ∧ p.1.movieId ∈ rs.map Rating.movieId ∧ 10 ≤ groupCount rs p.1.movieId ∧
    p.2 = groupMean rs p.1.movieId / 5 := by
  unfold popularQ at h
  obtain ⟨q, hq, rfl⟩ := List.mem_map.mp (List.mem_of_mem_take h)
  rw [mem_sortDescBy] at hq
  obtain ⟨m, hm, hq2⟩ := List.mem_flatMap.mp hq
  obtain ⟨mv, hmv, heq⟩ := List.mem_map.mp hq2
  have hfil : mv.movieId = m := by
    have := List.of_mem_filter hmv
    simpa using this
  have hqual := List.mem_filter.mp hm
  have hmem : m ∈ rs.map Rating.movieId := by
    have h1 := hqual.1
    rw [movieCols, mem_sortedDedup] at h1
    exact h1
  have hcount : 10 ≤ groupCount rs m := by simpa using hqual.2
  subst heq
  refine ⟨List.mem_of_mem_filter hmv, ?_, ?_, ?_⟩
  · simpa [hfil] using hmem
  · simpa [hfil] using hcount
  · simp [hfil]

theorem sorted_popularQ (ms : List Movie) (rs : List Rating) (n : ℕ) :
    (popularQ ms rs n).Sorted (fun a b => b.2 ≤ a.2) := by
  unfold popularQ
  apply List.Pairwise.sublist (List.take_sublist _ _)
  refine List.Pairwise.map (fun p => (p.1, p.2 / 5)) ?_
    (sorted_sortDescBy (fun p : Movie × ℚ => p.2) _)
  intro a b hab
  simp only
  gcongr

theorem popularQ_take {ms : List Movie} {rs : List Rating} {n k : ℕ} (hnk : n ≤ k) :
    popularQ ms rs n = (popularQ ms rs k).take n := by
  unfold popularQ
  rw [List.take_take, min_eq_left hnk]

theorem filter_movieId_ids_sublist {ms : List Movie}
    (hnodup : (ms.map Movie.movieId).Nodup) (m : Int) :
    ((ms.filter (fun x => decide (x.movieId = m))).map (fun x => x.movieId)).Sublist [m] := by
  induction ms with
  | nil => simp
  | cons y ys ih =>
    simp only [List.map_cons, List.nodup_cons] at hnodup
    by_cases hy : y.movieId = m
    · rw [List.filter_cons_of_pos (by simpa using hy)]
      have hnil : ys.filter (fun x => decide (x.movieId = m)) = [] := by
        rw [List.filter_eq_nil_iff]
        intro x hx
        simp only [decide_eq_true_eq]
        intro heq
        exact hnodup.1 ((hy ▸ heq : x.movieId = y.movieId) ▸ List.mem_map_of_mem Movie.movieId hx)
      rw [hnil]
      simp [hy]
    · rw [List.filter_cons_of_neg (by simpa using hy)]
      exact ih hnodup.2

theorem flatMap_block_ids_sublist {ms : List Movie} {rs : List Rating}
    (hnodup : (ms.map Movie.movieId).Nodup) (l : List Int) :
    ((l.flatMap (fun m => (ms.filter (fun mv => decide (mv.movieId = m))).map
      (fun mv => (mv, groupMean rs m)))).map (fun p => p.1.movieId)).Sublist l := by
  induction l with
  | nil => simp
  | cons m rest ih =>
    simp only [List.flatMap_cons, List.map_append]
    have h1 := (filter_movieId_ids_sublist hnodup m).append ih
    simpa [List.map_map, Function.comp] using h1

theorem nodup_ids_popularQ {ms : List Movie} (rs : List Rating) (n : ℕ)
    (hnodup : (ms.map Movie.movieId).Nodup) :
    ((popularQ ms rs n).map (fun p => p.1.movieId)).Nodup := by
  unfold popularQ
  simp only [List.map_take, List.map_map]
  refine List.Nodup.sublist (List.take_sublist _ _) ?_
  have hperm := (perm_sortDescBy (fun p : Movie × ℚ => p.2)
    ((qualifyingIds rs).flatMap (fun m =>
      (ms.filter (fun mv => decide (mv.movieId = m))).map
        (fun mv => (mv, groupMean rs m))))).map (fun p : Movie × ℚ => p.1.movieId)
  refine hperm.nodup_iff.mpr ?_
  refine List.Nodup.sublist (flatMap_block_ids_sublist hnodup _) ?_
  exact List.Nodup.filter _ (nodup_sortedDedup _)

theorem merged_length {ms : List Movie} {rs : List Rating}
    (hnodup : (ms.map Movie.movieId).Nodup)
    (href : ∀ r ∈ rs, r.movieId ∈ ms.map Movie.movieId) :
    ((qualifyingIds rs).flatMap (fun m => (ms.filter (fun mv => decide (mv.movieId = m))).map
      (fun mv => (mv, groupMean rs m)))).length = (qualifyingIds rs).length := by
  rw [List.length_flatMap]
  simp only [Function.comp_def]
  have hone : ∀ m ∈ qualifyingIds rs,
      ((ms.filter (fun mv => decide (mv.movieId = m))).map
        (fun mv => (mv, groupMean rs m))).length = 1 := by
    intro m hm
    rw [List.length_map]
    have hmem : m ∈ rs.map Rating.movieId := by
      have h1 := (List.mem_filter.mp hm).1
      rwa [movieCols, mem_sortedDedup] at h1
    obtain ⟨r, hr, hrid⟩ := List.mem_map.mp hmem
    obtain ⟨mv, hmv, hmvid⟩ := List.mem_map.mp (href r hr)
    have hfil := filter_movieId_eq_singleton hnodup hmv
    rw [hmvid, hrid] at hfil
    rw [hfil]
    rfl
  rw [List.map_congr_left hone]
  simp

/-- The unique catalog movie with a given id present in the catalog. -/
theorem exists_filter_movieId {ms : List Movie} {m : Int}
    (hnodup : (ms.map Movie.movieId).Nodup) (hm : m ∈ ms.map Movie.movieId) :
    ∃ mv : Movie, mv ∈ ms ∧ mv.movieId = m ∧
      ms.filter (fun x => decide (x.movieId = m)) = [mv] := by
  obtain ⟨mv, hmv, hmvid⟩ := List.mem_map.mp hm
  refine ⟨mv, hmv, hmvid, ?_⟩
  have hfil := filter_movieId_eq_singleton hnodup hmv
  rwa [hmvid] at hfil

/-! Claim C5: shape of the popularity list. -/

/-- C5: for every n, `popular(n)` returns only movies with at least 10
ratings, sorted by mean rating descending, each scored `mean / 5.0`; and
when fewer than n movies qualify the output contains exactly the
qualifying movies. Hypotheses: catalog ids are unique and every rating
references a catalog movie, the documented preprocessing contract. -/
theorem C5_popular_properties (ms : List Movie) (rs : List Rating) (n : ℕ)
    (hnodup : (ms.map Movie.movieId).Nodup)
    (href : ∀ r ∈ rs, r.movieId ∈ ms.map Movie.movieId) :
    (∀ p ∈ get_popular_movies ms rs n, 10 ≤ groupCount rs p.1.movieId) ∧
    (get_popular_movies ms rs n).Sorted (fun a b => b.2 ≤ a.2) ∧
    (∀ p ∈ get_popular_movies ms rs n, p.2 = ((groupMean rs p.1.movieId / 5 : ℚ) : ℝ)) ∧
    ((qualifyingIds rs).length < n →
      ∀ m : Int, (∃ p ∈ get_popular_movies ms rs n, p.1.movieId = m) ↔
        m ∈ qualifyingIds rs) := by
  refine ⟨?_, ?_, ?_, ?_⟩
  · intro p hp
    obtain ⟨q, hq, rfl⟩ := List.mem_map.mp hp
    exact (mem_popularQ hq).2.2.1
  · refine List.Pairwise.map _ ?_ (sorted_popularQ ms rs n)
    intro a b hab
    simp only
    exact_mod_cast hab
  · intro p hp
    obtain ⟨q, hq, rfl⟩ := List.mem_map.mp hp
    have h2 := (mem_popularQ hq).2.2.2
    simp only
    exact congrArg (fun x : ℚ => (x : ℝ)) h2
  · intro hlt m
    constructor
    · rintro ⟨p, hp, rfl⟩
      obtain ⟨q, hq, rfl⟩ := List.mem_map.mp hp
      have hh := mem_popularQ hq
      rw [qualifyingIds, List.mem_filter]
      refine ⟨?_, by simpa using hh.2.2.1⟩
      rw [movieCols, mem_sortedDedup]
      obtain ⟨r, hr, hrid⟩ := List.mem_map.mp hh.2.1
      exact hrid ▸ List.mem_map_of_mem Rating.movieId hr
    · intro hm
      have hmemrs : m ∈ rs.map Rating.movieId := by
        have h1 := (List.mem_filter.mp hm).1
        rwa [movieCols, mem_sortedDedup] at h1
      obtain ⟨r, hr, hrid⟩ := List.mem_map.mp hmemrs
      have hmcat : m ∈ ms.map Movie.movieId := hrid ▸ href r hr
      obtain ⟨mv, hmv, hmvid, hfil⟩ := exists_filter_movieId hnodup hmcat
      have hqmem : (mv, groupMean rs m / 5) ∈ popularQ ms rs n := by
        unfold popularQ
        have hmerged : (mv, groupMean rs m) ∈ (qualifyingIds rs).flatMap (fun k =>
            (ms.filter (fun x => decide (x.movieId = k))).map
              (fun x => (x, groupMean rs k))) :=
          List.mem_flatMap.mpr ⟨m, hm, by rw [hfil]; simp⟩
        have hlen : ((sortDescBy (fun p : Movie × ℚ => p.2) ((qualifyingIds rs).flatMap (fun k =>
            (ms.filter (fun x => decide (x.movieId = k))).map
              (fun x => (x, groupMean rs k))))).map (fun p => (p.1, p.2 / 5))).length ≤ n := by
          rw [List.length_map, length_sortDescBy, merged_length hnodup href]
          exact hlt.le
        rw [List.take_of_length_le hlen]
        exact List.mem_map.mpr ⟨(mv, groupMean rs m), mem_sortDescBy.mpr hmerged, rfl⟩
      refine ⟨(mv, ((groupMean rs m / 5 : ℚ) : ℝ)), ?_, hmvid⟩
      exact List.mem_map.mpr ⟨(mv, groupMean rs m / 5), hqmem, rfl⟩

/-- Witness for C5 on a concrete catalog and rating table (movie 1 has ten
5.0 ratings, so it qualifies and fewer than n movies qualify). -/
theorem C5_witness :
    ((catalog3.map Movie.movieId).Nodup ∧
      ∀ r ∈ ratings10, r.movieId ∈ catalog3.map Movie.movieId) ∧
    ((∀ p ∈ get_popular_movies catalog3 ratings10 5, 10 ≤ groupCount ratings10 p.1.movieId) ∧
      (get_popular_movies catalog3 ratings10 5).Sorted (fun a b => b.2 ≤ a.2) ∧
      (∀ p ∈ get_popular_movies catalog3 ratings10 5,
        p.2 = ((groupMean ratings10 p.1.movieId / 5 : ℚ) : ℝ)) ∧
      ((qualifyingIds ratings10).length < 5 →
        ∀ m : Int, (∃ p ∈ get_popular_movies catalog3 ratings10 5, p.1.movieId = m) ↔
          m ∈ qualifyingIds ratings10)) :=
  ⟨⟨by decide, by decide⟩, C5_popular_properties catalog3 ratings10 5 (by decide) (by decide)⟩

/-! Lemmas about the user-item pivot values. -/

theorem mem_userIds {rs : List Rating} {u : Int} :
    u ∈ userIds rs ↔ u ∈ rs.map Rating.userId := by
  rw [userIds, mem_sortedDedup]

theorem list_sum_lt_of_lt {l : List ℚ} {a : ℚ} (hne : l ≠ []) (h : ∀ x ∈ l, x < a) :
    l.sum < l.length * a := by
  induction l with
  | nil => exact absurd rfl hne
  | cons x xs ih =>
    cases xs with
    | nil => simpa using h x (by simp)
    | cons y ys =>
      have hx := h x (by simp)
      have htail := ih (by simp) (fun z hz => h z (by simp [hz]))
      simp only [List.sum_cons, List.length_cons] at htail ⊢
      push_cast
      push_cast at htail
      nlinarith

theorem list_sum_eq_of_const {l : List ℚ} {c : ℚ} (h : ∀ x ∈ l, x = c) :
    l.sum = l.length * c := by
  induction l with
  | nil => simp
  | cons x xs ih =>
    have hx := h x (by simp)
    have htail := ih (fun z hz => h z (by simp [hz]))
    simp only [List.sum_cons, List.length_cons, htail, hx]
    push_cast
    ring

theorem userRatingsFor_mem {rs : List Rating} {u m : Int} {x : ℚ}
    (hx : x ∈ userRatingsFor rs u m) :
    ∃ r ∈ rs, r.userId = u ∧ r.movieId = m ∧ r.rating = x := by
  obtain ⟨r, hr, rfl⟩ := List.mem_map.mp hx
  have hfil := List.of_mem_filter hr
  simp only [decide_eq_true_eq] at hfil
  exact ⟨r, List.mem_of_mem_filter hr, hfil.1, hfil.2, rfl⟩

theorem uiVal_lt_four {rs : List Rating} {u m : Int}
    (hlow : ∀ r ∈ rs, r.userId = u → r.rating < 4) : uiVal rs u m < 4 := by
  unfold uiVal
  split
  · norm_num
  · rename_i hne
    have hlen : (0 : ℚ) < (userRatingsFor rs u m).length := by
      exact_mod_cast List.length_pos.mpr hne
    rw [div_lt_iff₀ hlen]
    have := list_sum_lt_of_lt hne (fun x hx => by
      obtain ⟨r, hr, hru, _, hrx⟩ := userRatingsFor_mem hx
      exact hrx ▸ hlow r hr hru)
    linarith [this]

theorem uiVal_eq_of_dedup {rs : List Rating} {u m : Int} {r : Rating}
    (hd : ∀ r1 ∈ rs, ∀ r2 ∈ rs, r1.userId = r2.userId → r1.movieId = r2.movieId → r1 = r2)
    (hr : r ∈ rs) (hru : r.userId = u) (hrm : r.movieId = m) : uiVal rs u m = r.rating := by
  have hconst : ∀ x ∈ userRatingsFor rs u m, x = r.rating := by
    intro x hx
    obtain ⟨r', hr', hru', hrm', hrx⟩ := userRatingsFor_mem hx
    have : r' = r := hd r' hr' r hr (hru'.trans hru.symm) (hrm'.trans hrm.symm)
    rw [← hrx, this]
  have hne : userRatingsFor rs u m ≠ [] := by
    have : r.rating ∈ userRatingsFor rs u m := by
      unfold userRatingsFor
      exact List.mem_map.mpr ⟨r, List.mem_filter.mpr ⟨hr, by simp [hru, hrm]⟩, rfl⟩
    exact List.ne_nil_of_mem this
  unfold uiVal
  rw [if_neg hne, list_sum_eq_of_const hconst]
  have hlen : ((userRatingsFor rs u m).length : ℚ) ≠ 0 := by
    exact_mod_cast fun h => hne (List.length_eq_zero.mp h)
  rw [mul_comm, mul_div_assoc, div_self hlen, mul_one]

/-! Claim C6: routing of `get_user_recommendations`. -/

/-- C6: `for_user(userId, n)` returns `popular(n)` for a user absent from
the ratings, returns `popular(n)` when all of the user's ratings are
strictly below 4.0, and otherwise returns `collaborative(highRated, n)`
where `highRated` is exactly the set of movies the user rated at least
4.0. The hypothesis is the data-model invariant of at most one rating per
(user, movie) pair. -/
theorem C6_for_user_routing (ms : List Movie) (rs : List Rating) (u : Int) (n : ℕ)
    (hd : ∀ r1 ∈ rs, ∀ r2 ∈ rs, r1.userId = r2.userId → r1.movieId = r2.movieId → r1 = r2) :
    (u ∉ rs.map Rating.userId →
      get_user_recommendations ms rs u n = get_popular_movies ms rs n) ∧
    ((∀ r ∈ rs, r.userId = u → r.rating < 4) →
      get_user_recommendations ms rs u n = get_popular_movies ms rs n) ∧
    ((∃ r ∈ rs, r.userId = u ∧ 4 ≤ r.rating) →
      get_user_recommendations ms rs u n =
        collaborative_filtering_recommendations ms rs (highOf rs u) n ∧
      ∀ m : Int, m ∈ highOf rs u ↔ ∃ r ∈ rs, r.userId = u ∧ r.movieId = m ∧ 4 ≤ r.rating) := by
  refine ⟨?_, ?_, ?_⟩
  · intro hu
    unfold get_user_recommendations
    rw [if_neg (fun hmem => hu (mem_userIds.mp hmem))]
  · intro hlow
    unfold get_user_recommendations
    by_cases hu : u ∈ userIds rs
    · rw [if_pos hu, if_pos ?_]
      rw [highOf, List.filter_eq_nil_iff]
      intro m _
      simp only [decide_eq_true_eq]
      intro h4
      exact absurd h4 (not_le.mpr (uiVal_lt_four hlow))
    · rw [if_neg hu]
  · rintro ⟨r, hr, hru, hr4⟩
    have hu : u ∈ userIds rs :=
      mem_userIds.mpr (hru ▸ List.mem_map_of_mem Rating.userId hr)
    have hmhigh : r.movieId ∈ highOf rs u := by
      rw [highOf, List.mem_filter]
      refine ⟨?_, ?_⟩
      · rw [movieCols, mem_sortedDedup]
        exact List.mem_map_of_mem Rating.movieId hr
      · simp only [decide_eq_true_eq]
        rw [uiVal_eq_of_dedup hd hr hru rfl]
        exact hr4
    constructor
    · unfold get_user_recommendations
      rw [if_pos hu, if_neg (List.ne_nil_of_mem hmhigh)]
    · intro m
      constructor
      · intro hm
        have hfil := List.mem_filter.mp hm
        have h4 : 4 ≤ uiVal rs u m := by simpa using hfil.2
        have hne : userRatingsFor rs u m ≠ [] := by
          intro hnil
          rw [uiVal, if_pos hnil] at h4
          norm_num at h4
        obtain ⟨x, hx⟩ := List.exists_mem_of_ne_nil _ hne
        obtain ⟨r', hr', hru', hrm', hrx⟩ := userRatingsFor_mem hx
        refine ⟨r', hr', hru', hrm', ?_⟩
        rwa [uiVal_eq_of_dedup hd hr' hru' hrm'] at h4
      · rintro ⟨r', hr', hru', hrm', hr4'⟩
        rw [highOf, List.mem_filter]
        refine ⟨?_, ?_⟩
        · rw [movieCols, mem_sortedDedup]
          exact hrm' ▸ List.mem_map_of_mem Rating.movieId hr'
        · simp only [decide_eq_true_eq]
          rw [uiVal_eq_of_dedup hd hr' hru' hrm']
          exact hr4'

/-- Witness for C6 on the concrete rating table (user 1 rated movie 1 at 5.0). -/
theorem C6_witness :
    (∀ r1 ∈ ratings10, ∀ r2 ∈ ratings10,
      r1.userId = r2.userId → r1.movieId = r2.movieId → r1 = r2) ∧
    (((1 : Int) ∉ ratings10.map Rating.userId →
      get_user_recommendations catalog3 ratings10 1 3 =
        get_popular_movies catalog3 ratings10 3) ∧
    ((∀ r ∈ ratings10, r.userId = 1 → r.rating < 4) →
      get_user_recommendations catalog3 ratings10 1 3 =
        get_popular_movies catalog3 ratings10 3) ∧
    ((∃ r ∈ ratings10, r.userId = 1 ∧ 4 ≤ r.rating) →
      get_user_recommendations catalog3 ratings10 1 3 =
        collaborative_filtering_recommendations catalog3 ratings10 (highOf ratings10 1) 3 ∧
      ∀ m : Int, m ∈ highOf ratings10 1 ↔
        ∃ r ∈ ratings10, r.userId = 1 ∧ r.movieId = m ∧ 4 ≤ r.rating)) :=
  ⟨by decide, C6_for_user_routing catalog3 ratings10 1 3 (by decide)⟩

/-! Concrete evaluation of the content similarity row of `catalog3`
(movies A and B share the single token list, C is disjoint). -/

theorem dotT_catalog3_drama_comedy : dotT catalog3 ["drama"] ["comedy"] = 0 := by
  unfold dotT
  rw [(by decide : vocab catalog3 = ["drama", "comedy"])]
  simp only [List.map_cons, List.map_nil, List.sum_cons, List.sum_nil]
  unfold wt
  rw [(by decide : tf ["comedy"] "drama" = 0), (by decide : tf ["drama"] "comedy" = 0)]
  push_cast
  ring

theorem simIdx_catalog3_1_1 : simIdx catalog3 1 1 = 1 :=
  simIdx_self_of_token (by decide) (by decide)

theorem simIdx_catalog3_0_0 : simIdx catalog3 0 0 = 1 :=
  simIdx_self_of_token (by decide) (by decide)

theorem simIdx_catalog3_1_0 : simIdx catalog3 1 0 = 1 := by
  unfold simIdx
  rw [(by decide : toksAt catalog3 0 = ["drama"]), (by decide : toksAt catalog3 1 = ["drama"])]
  exact cosineSim_self (@dotT_self_pos catalog3 ["drama"] "drama" (by decide) (by decide))

theorem simIdx_catalog3_0_1 : simIdx catalog3 0 1 = 1 := by
  unfold simIdx
  rw [(by decide : toksAt catalog3 0 = ["drama"]), (by decide : toksAt catalog3 1 = ["drama"])]
  exact cosineSim_self (@dotT_self_pos catalog3 ["drama"] "drama" (by decide) (by decide))

theorem simIdx_catalog3_1_2 : simIdx catalog3 1 2 = 0 := by
  unfold simIdx
  rw [(by decide : toksAt catalog3 1 = ["drama"]), (by decide : toksAt catalog3 2 = ["comedy"]),
    dotT_catalog3_drama_comedy, cosineSim_of_dot_zero]

theorem simIdx_catalog3_0_2 : simIdx catalog3 0 2 = 0 := by
  unfold simIdx
  rw [(by decide : toksAt catalog3 0 = ["drama"]), (by decide : toksAt catalog3 2 = ["comedy"]),
    dotT_catalog3_drama_comedy, cosineSim_of_dot_zero]

/-- Full evaluation of `content_based_recommendations` on `catalog3` for the
second Drama movie (id 2): the similarity row is `[1, 1, 0]`, the stable
descending sort keeps index order `[0, 1, 2]`, and dropping the first entry
drops movie A — leaving the queried movie B itself in the result. -/
theorem content_catalog3_query2 :
    content_based_recommendations catalog3 [] 2 2 = [(mvB, 1), (mvC, 0)] := by
  unfold content_based_recommendations
  simp only [(by decide : catalog3.findIdx? (fun mv => decide (mv.movieId = 2)) = some 1)]
  have h1 : (List.range catalog3.length).map (fun j => (j, simIdx catalog3 1 j)) =
      [(0, simIdx catalog3 1 0), (1, simIdx catalog3 1 1), (2, simIdx catalog3 1 2)] := rfl
  rw [h1, simIdx_catalog3_1_0, simIdx_catalog3_1_1, simIdx_catalog3_1_2]
  have h2 : sortDescBy (fun p : ℕ × ℝ => p.2) [(0, 1), (1, 1), (2, 0)] =
      [(0, 1), (1, 1), (2, 0)] := by
    apply sortDescBy_eq_self
    norm_num [List.sorted_cons]
  rw [h2]
  rfl

/-- Full evaluation of `content_based_recommendations` on `catalog3` for the
first Drama movie (id 1): here the dropped head of the sorted list is the
queried movie itself, so the result is `[B, C]` as intended. -/
theorem content_catalog3_query1 :
    content_based_recommendations catalog3 [] 1 2 = [(mvB, 1), (mvC, 0)] := by
  unfold content_based_recommendations
  simp only [(by decide : catalog3.findIdx? (fun mv => decide (mv.movieId = 1)) = some 0)]
  have h1 : (List.range catalog3.length).map (fun j => (j, simIdx catalog3 0 j)) =
      [(0, simIdx catalog3 0 0), (1, simIdx catalog3 0 1), (2, simIdx catalog3 0 2)] := rfl
  rw [h1, simIdx_catalog3_0_0, simIdx_catalog3_0_1, simIdx_catalog3_0_2]
  have h2 : sortDescBy (fun p : ℕ × ℝ => p.2) [(0, 1), (1, 1), (2, 0)] =
      [(0, 1), (1, 1), (2, 0)] := by
    apply sortDescBy_eq_self
    norm_num [List.sorted_cons]
  rw [h2]
  rfl

/-! Claim C1: the queried movie is supposed to be excluded from its own
content-based recommendations. -/

/-- C1: the line-86 comment promises to exclude the queried movie, but the
slice `[1:n+1]` drops only the head of a stable descending sort. Querying
movie B (id 2) of `catalog3`, whose genre vector ties at similarity 1 with
the earlier movie A, drops A instead: the returned ids are `[2, 3]`, so the
queried id 2 appears in its own recommendation list. -/
theorem C1_tie_keeps_queried_movie :
    (content_based_recommendations catalog3 [] 2 2).map (fun p => p.1.movieId) = [2, 3] := by
  rw [content_catalog3_query2]
  rfl

/-! Claim C9 counterexample machinery: full evaluation of a hybrid call
with caller-supplied weights (2.0, 0.0) on `catalog3` with no ratings. -/

theorem collab_catalog3_empty_eval :
    collaborative_filtering_recommendations catalog3 [] [1] 2 = [] := by
  unfold collaborative_filtering_recommendations
  rw [(by rfl : pooledNeighbors catalog3 [] [1] 2 = []), if_pos rfl]
  rfl

theorem hybrid_catalog3_weight_two_eval :
    hybrid_recommendations catalog3 [] [1] 1 2 0 = [(mvB, 2 * 1)] := by
  have hcd : hybridContentDict catalog3 [] [1] 1 2 = [(2, 2 * 1), (3, 2 * 0)] := by
    unfold hybridContentDict
    show (content_based_recommendations catalog3 [] 1 (1 * 2)).foldl
        (fun d p => upsert d p.1.movieId ((2 : ℝ) * p.2)) [] = [(2, 2 * 1), (3, 2 * 0)]
    rw [(by norm_num : 1 * 2 = 2), content_catalog3_query1]
    rfl
  have hdict : hybridDict catalog3 [] [1] 1 2 0 = [(2, 2 * 1), (3, 2 * 0)] := by
    unfold hybridDict
    rw [(by norm_num : 1 * 2 = 2), collab_catalog3_empty_eval, if_pos rfl, hcd]
  have hsort : sortDescBy (fun q : Int × ℝ => q.2) [(2, 2 * 1), (3, 2 * 0)] =
      [(2, 2 * 1), (3, 2 * 0)] := by
    apply sortDescBy_eq_self
    norm_num [List.sorted_cons]
  have hrows : hybridRows catalog3 [] [1] 1 2 0 = [(mvB, 2 * 1)] := by
    unfold hybridRows
    rw [hdict, hsort]
    rfl
  unfold hybrid_recommendations
  rw [hrows, if_neg (List.cons_ne_nil _ _)]

/-- C9 counterexample: with the caller-supplied weight pair (2.0, 0.0) —
weights are explicitly not required to sum to 1 — the hybrid strategy
returns a similarityScore of 2, outside the interval from 0 to 1. -/
theorem C9_counterexample_score_above_one :
    (hybrid_recommendations catalog3 [] [1] 1 2 0).map (fun p => p.2) = [(2 : ℝ)] ∧
    ¬((2 : ℝ) ≤ 1) := by
  constructor
  · rw [hybrid_catalog3_weight_two_eval]
    norm_num
  · norm_num

/-! Lemmas about catalog lookup and dict building used by the hybrid claims. -/

theorem find?_movieId_of_nodup {ms : List Movie} (hnodup : (ms.map Movie.movieId).Nodup)
    {mv : Movie} (hmv : mv ∈ ms) :
    ms.find? (fun x => decide (x.movieId = mv.movieId)) = some mv := by
  induction ms with
  | nil => simp at hmv
  | cons y ys ih =>
    simp only [List.map_cons, List.nodup_cons] at hnodup
    rcases List.mem_cons.mp hmv with h | h
    · subst h
      rw [List.find?_cons_of_pos _ (by simp)]
    · have hne : ¬(y.movieId = mv.movieId) := fun heq =>
        hnodup.1 (heq ▸ List.mem_map_of_mem Movie.movieId h)
      rw [List.find?_cons_of_neg _ (by simpa using hne)]
      exact ih hnodup.2 h

theorem foldl_upsert_append {recs : List (Movie × ℝ)} {w : ℝ} (acc : List (Int × ℝ))
    (hnodup : (recs.map (fun p => p.1.movieId)).Nodup)
    (hdisj : ∀ p ∈ recs, p.1.movieId ∉ acc.map Prod.fst) :
    recs.foldl (fun d p => upsert d p.1.movieId (w * p.2)) acc =
      acc ++ recs.map (fun p => (p.1.movieId, w * p.2)) := by
  induction recs generalizing acc with
  | nil => simp
  | cons p rest ih =>
    simp only [List.map_cons, List.nodup_cons] at hnodup
    simp only [List.foldl_cons, List.map_cons]
    rw [upsert_of_not_mem _ (hdisj p (by simp))]
    rw [ih (acc ++ [(p.1.movieId, w * p.2)]) hnodup.2 ?_]
    · rw [List.append_assoc]
      rfl
    · intro q hq
      simp only [List.map_append, List.mem_append]
      push_neg
      refine ⟨hdisj q (by simp [hq]), ?_⟩
      simp only [List.map_cons, List.map_nil, List.mem_singleton]
      intro heq
      exact hnodup.1 (heq ▸ List.mem_map_of_mem (fun p => p.1.movieId) hq)

theorem filterMap_eq_map_of_forall_some {α β : Type} {f : α → Option β} {g : α → β}
    {l : List α} (h : ∀ x ∈ l, f x = some (g x)) : l.filterMap f = l.map g := by
  induction l with
  | nil => rfl
  | cons x xs ih =>
    simp only [List.filterMap_cons, h x (by simp), List.map_cons]
    rw [ih (fun y hy => h y (by simp [hy]))]

theorem foldl_upsert_map {recs : List (Movie × ℝ)} {w : ℝ}
    (hnodup : (recs.map (fun p => p.1.movieId)).Nodup) :
    recs.foldl (fun d p => upsert d p.1.movieId (w * p.2)) [] =
      recs.map (fun p => (p.1.movieId, w * p.2)) := by
  simpa using foldl_upsert_append [] hnodup (by simp)

/-! Claim C7: hybrid on an empty seed list versus the popularity list. -/

/-- C7 amended: with an empty movieIds list the hybrid strategy returns the
popularity list of the same movies in the same order, but each
similarityScore is multiplied by `collab_weight` (0.4 by default) because
the collaborative sub-call falls back to `popular(2n)` and its rows are
folded into the hybrid accumulator with weight `collab_weight`. -/
theorem C7_hybrid_empty_seed_is_scaled_popular (ms : List Movie) (rs : List Rating) (n : ℕ)
    (cw colw : ℝ) (hnodup : (ms.map Movie.movieId).Nodup) (hcolw : 0 ≤ colw) :
    hybrid_recommendations ms rs [] n cw colw =
      (get_popular_movies ms rs n).map (fun p => (p.1, colw * p.2)) := by
  have hcollab : collaborative_filtering_recommendations ms rs [] (n * 2) =
      get_popular_movies ms rs (n * 2) := by
    unfold collaborative_filtering_recommendations
    rw [if_pos (by rfl)]
  have hcd : hybridContentDict ms rs [] n cw = [] := rfl
  have hpopn : popularQ ms rs n = (popularQ ms rs (n * 2)).take n :=
    popularQ_take (by omega)
  by_cases hpop : get_popular_movies ms rs (n * 2) = []
  · have hq2 : popularQ ms rs (n * 2) = [] := by
      unfold get_popular_movies at hpop
      exact List.map_eq_nil_iff.mp hpop
    have hqn : popularQ ms rs n = [] := by rw [hpopn, hq2, List.take_nil]
    have hgpn : get_popular_movies ms rs n = [] := by
      unfold get_popular_movies
      rw [hqn]
      rfl
    have hdict : hybridDict ms rs [] n cw colw = [] := by
      unfold hybridDict
      rw [hcollab, hpop, if_pos rfl, hcd]
    have hrows : hybridRows ms rs [] n cw colw = [] := by
      unfold hybridRows
      rw [hdict, sortDescBy_nil, List.take_nil, List.filterMap_nil]
    unfold hybrid_recommendations
    rw [hrows, if_pos rfl, hgpn]
    rfl
  · have hids : ((get_popular_movies ms rs (n * 2)).map (fun p => p.1.movieId)).Nodup := by
      unfold get_popular_movies
      rw [List.map_map]
      exact nodup_ids_popularQ rs (n * 2) hnodup
    have hdict : hybridDict ms rs [] n cw colw =
        (get_popular_movies ms rs (n * 2)).map (fun p => (p.1.movieId, colw * p.2)) := by
      unfold hybridDict
      rw [hcollab, if_neg hpop, hcd]
      exact foldl_upsert_map hids
    have hbase : (get_popular_movies ms rs (n * 2)).Sorted (fun a b => b.2 ≤ a.2) := by
      unfold get_popular_movies
      refine List.Pairwise.map _ ?_ (sorted_popularQ ms rs (n * 2))
      intro a b hab
      simp only
      exact_mod_cast hab
    have hsorted : ((get_popular_movies ms rs (n * 2)).map
        (fun p => (p.1.movieId, colw * p.2))).Sorted (fun a b => b.2 ≤ a.2) := by
      refine List.Pairwise.map _ ?_ hbase
      intro a b hab
      exact mul_le_mul_of_nonneg_left hab hcolw
    have hnzero : n ≠ 0 := by
      intro h0
      subst h0
      apply hpop
      unfold get_popular_movies popularQ
      rfl
    have htop : ((get_popular_movies ms rs (n * 2)).map
        (fun p => (p.1.movieId, colw * p.2))).take n =
        (get_popular_movies ms rs n).map (fun p => (p.1.movieId, colw * p.2)) := by
      unfold get_popular_movies
      rw [← List.map_take, ← List.map_take, ← hpopn]
    have hrecs : ((get_popular_movies ms rs n).map
        (fun p => (p.1.movieId, colw * p.2))).filterMap (fun q =>
          (ms.find? (fun mv => decide (mv.movieId = q.1))).map (fun mv => (mv, q.2))) =
        (get_popular_movies ms rs n).map (fun p => (p.1, colw * p.2)) := by
      rw [List.filterMap_map]
      refine filterMap_eq_map_of_forall_some ?_
      intro p hp
      obtain ⟨q, hq, rfl⟩ := List.mem_map.mp hp
      have hmem := (mem_popularQ hq).1
      simp only [Function.comp]
      rw [find?_movieId_of_nodup hnodup hmem]
      rfl
    have hrows : hybridRows ms rs [] n cw colw =
        (get_popular_movies ms rs n).map (fun p => (p.1, colw * p.2)) := by
      unfold hybridRows
      rw [hdict, sortDescBy_eq_self hsorted, htop, hrecs]
    have hqn_ne : popularQ ms rs n ≠ [] := by
      rw [hpopn]
      intro htake
      rcases List.take_eq_nil_iff.mp htake with h | h
      · exact hnzero h
      · apply hpop
        unfold get_popular_movies
        rw [h]
        rfl
    unfold hybrid_recommendations
    rw [hrows, if_neg ?_]
    intro hmapnil
    apply hqn_ne
    have h1 := List.map_eq_nil_iff.mp hmapnil
    unfold get_popular_movies at h1
    exact List.map_eq_nil_iff.mp h1

/-- C7 counterexample: with an empty seed list and one qualifying popular
movie (mean 5.0), `hybrid` returns that movie with score 0.4 while a direct
`popular` call scores it 1.0 — same movie and order, different
similarityScore, refuting the claimed exact equality. -/
theorem C7_counterexample_score_differs :
    (hybrid_recommendations catalog3 ratings10 [] 1 (6 / 10) (4 / 10)).map (fun p => p.2) =
      [(2 / 5 : ℝ)] ∧
    (get_popular_movies catalog3 ratings10 1).map (fun p => p.2) = [(1 : ℝ)] ∧
    (2 / 5 : ℝ) ≠ 1 := by
  have hgr : groupRatings ratings10 1 = [5, 5, 5, 5, 5, 5, 5, 5, 5, 5] := rfl
  have hgm : groupMean ratings10 1 = 5 := by
    unfold groupMean
    rw [hgr, if_neg (List.cons_ne_nil _ _)]
    norm_num
  have hqual : qualifyingIds ratings10 = [1] := by decide
  have hpop2 : popularQ catalog3 ratings10 2 = [(mvA, groupMean ratings10 1 / 5)] := by
    unfold popularQ
    rw [hqual]
    rfl
  have hpop1 : popularQ catalog3 ratings10 1 = [(mvA, groupMean ratings10 1 / 5)] := by
    unfold popularQ
    rw [hqual]
    rfl
  have hgp2 : get_popular_movies catalog3 ratings10 2 =
      [(mvA, ((groupMean ratings10 1 / 5 : ℚ) : ℝ))] := by
    unfold get_popular_movies
    rw [hpop2]
    rfl
  have hgp1 : get_popular_movies catalog3 ratings10 1 =
      [(mvA, ((groupMean ratings10 1 / 5 : ℚ) : ℝ))] := by
    unfold get_popular_movies
    rw [hpop1]
    rfl
  have hcollab : collaborative_filtering_recommendations catalog3 ratings10 [] 2 =
      [(mvA, ((groupMean ratings10 1 / 5 : ℚ) : ℝ))] := by
    unfold collaborative_filtering_recommendations
    rw [if_pos (by rfl)]
    exact hgp2
  have hcd : hybridContentDict catalog3 ratings10 [] 1 (6 / 10) = [] := rfl
  have hdict : hybridDict catalog3 ratings10 [] 1 (6 / 10) (4 / 10) =
      [(1, (4 / 10 : ℝ) * ((groupMean ratings10 1 / 5 : ℚ) : ℝ))] := by
    unfold hybridDict
    rw [(by norm_num : 1 * 2 = 2), hcollab, if_neg (List.cons_ne_nil _ _), hcd]
    rfl
  have hrows : hybridRows catalog3 ratings10 [] 1 (6 / 10) (4 / 10) =
      [(mvA, (4 / 10 : ℝ) * ((groupMean ratings10 1 / 5 : ℚ) : ℝ))] := by
    unfold hybridRows
    rw [hdict]
    rfl
  refine ⟨?_, ?_, by norm_num⟩
  · unfold hybrid_recommendations
    rw [hrows, if_neg (List.cons_ne_nil _ _)]
    simp only [List.map_cons, List.map_nil]
    rw [hgm]
    norm_num
  · rw [hgp1]
    simp only [List.map_cons, List.map_nil]
    rw [hgm]
    norm_num

/-- Witness for the amended C7 at concrete data and the default weights. -/
theorem C7_witness :
    ((catalog3.map Movie.movieId).Nodup ∧ (0 : ℝ) ≤ 4 / 10) ∧
    hybrid_recommendations catalog3 ratings10 [] 2 (6 / 10) (4 / 10) =
      (get_popular_movies catalog3 ratings10 2).map (fun p => (p.1, (4 / 10 : ℝ) * p.2)) :=
  ⟨⟨by decide, by norm_num⟩,
    C7_hybrid_empty_seed_is_scaled_popular catalog3 ratings10 2 (6 / 10) (4 / 10)
      (by decide) (by norm_num)⟩

/-! Lifted facts about `get_popular_movies` and structural facts about
`content_based_recommendations`, used by the hybrid claims. -/

theorem get_popular_mem {ms : List Movie} {rs : List Rating} {n : ℕ} {p : Movie × ℝ}
    (hp : p ∈ get_popular_movies ms rs n) :
    p.1 ∈ ms ∧ p.2 = ((groupMean rs p.1.movieId / 5 : ℚ) : ℝ) := by
  obtain ⟨q, hq, rfl⟩ := List.mem_map.mp hp
  exact ⟨(mem_popularQ hq).1, congrArg (fun x : ℚ => (x : ℝ)) (mem_popularQ hq).2.2.2⟩

theorem get_popular_scores_nonneg {ms : List Movie} {rs : List Rating} {n : ℕ}
    (hratings : ∀ r ∈ rs, 0 ≤ r.rating) {p : Movie × ℝ}
    (hp : p ∈ get_popular_movies ms rs n) : 0 ≤ p.2 := by
  rw [(get_popular_mem hp).2]
  have := groupMean_nonneg rs p.1.movieId hratings
  positivity

theorem get_popular_scores_le_one {ms : List Movie} {rs : List Rating} {n : ℕ}
    (hratings : ∀ r ∈ rs, r.rating ≤ 5) {p : Movie × ℝ}
    (hp : p ∈ get_popular_movies ms rs n) : p.2 ≤ 1 := by
  rw [(get_popular_mem hp).2]
  have h5 := groupMean_le_five rs p.1.movieId hratings
  have : (groupMean rs p.1.movieId / 5 : ℚ) ≤ 1 := by linarith
  exact_mod_cast this

theorem get_popular_take {ms : List Movie} {rs : List Rating} {n k : ℕ} (hnk : n ≤ k) :
    get_popular_movies ms rs n = (get_popular_movies ms rs k).take n := by
  unfold get_popular_movies
  rw [popularQ_take hnk, List.map_take]

theorem get_popular_length_le (ms : List Movie) (rs : List Rating) (n : ℕ) :
    (get_popular_movies ms rs n).length ≤ n := by
  unfold get_popular_movies popularQ
  simp only [List.length_map, List.length_take]
  exact min_le_left _ _

theorem get_popular_ids_nodup {ms : List Movie} (rs : List Rating) (n : ℕ)
    (hnodup : (ms.map Movie.movieId).Nodup) :
    ((get_popular_movies ms rs n).map (fun p => p.1.movieId)).Nodup := by
  unfold get_popular_movies
  rw [List.map_map]
  exact nodup_ids_popularQ rs n hnodup

theorem sorted_get_popular (ms : List Movie) (rs : List Rating) (n : ℕ) :
    (get_popular_movies ms rs n).Sorted (fun a b => b.2 ≤ a.2) := by
  unfold get_popular_movies
  refine List.Pairwise.map _ ?_ (sorted_popularQ ms rs n)
  intro a b hab
  simp only
  exact_mod_cast hab

theorem contentBased_take {ms : List Movie} {rs : List Rating} {mid : Int} {n k : ℕ}
    (hnk : n ≤ k) :
    content_based_recommendations ms rs mid n =
      (content_based_recommendations ms rs mid k).take n := by
  unfold content_based_recommendations
  cases hf : ms.findIdx? (fun mv => mv.movieId = mid) with
  | none => exact get_popular_take hnk
  | some i =>
    simp only
    rw [← List.map_take, List.take_take, min_eq_left hnk]

theorem sorted_contentBased (ms : List Movie) (rs : List Rating) (mid : Int) (n : ℕ) :
    (content_based_recommendations ms rs mid n).Sorted (fun a b => b.2 ≤ a.2) := by
  unfold content_based_recommendations
  cases hf : ms.findIdx? (fun mv => mv.movieId = mid) with
  | none => exact sorted_get_popular ms rs n
  | some i =>
    simp only
    have hbase : (((sortDescBy (fun p : ℕ × ℝ => p.2)
        ((List.range ms.length).map (fun j => (j, simIdx ms i j)))).drop 1).take n).Sorted
        (fun a b => b.2 ≤ a.2) := by
      refine List.Pairwise.sublist (List.take_sublist _ _) ?_
      refine List.Pairwise.sublist (List.drop_sublist _ _) ?_
      exact sorted_sortDescBy _ _
    refine List.Pairwise.map _ ?_ hbase
    intro a b hab
    exact hab

theorem contentBased_mem_some {ms : List Movie} {rs : List Rating} {mid : Int} {n i : ℕ}
    {p : Movie × ℝ} (hf : ms.findIdx? (fun mv => mv.movieId = mid) = some i)
    (hp : p ∈ content_based_recommendations ms rs mid n) :
    ∃ j, j < ms.length ∧ p = (ms.getD j mvDefault, simIdx ms i j) := by
  unfold content_based_recommendations at hp
  simp only [hf] at hp
  obtain ⟨q, hq, rfl⟩ := List.mem_map.mp hp
  have hq1 : q ∈ sortDescBy (fun p => p.2)
      ((List.range ms.length).map (fun j => (j, simIdx ms i j))) :=
    List.drop_subset _ _ (List.take_subset _ _ hq)
  rw [mem_sortDescBy] at hq1
  obtain ⟨j, hj, rfl⟩ := List.mem_map.mp hq1
  exact ⟨j, List.mem_range.mp hj, rfl⟩

theorem contentBased_mem_catalog {ms : List Movie} {rs : List Rating} {mid : Int} {n : ℕ}
    {p : Movie × ℝ} (hp : p ∈ content_based_recommendations ms rs mid n) : p.1 ∈ ms := by
  cases hf : ms.findIdx? (fun mv => mv.movieId = mid) with
  | none =>
    unfold content_based_recommendations at hp
    simp only [hf] at hp
    exact (get_popular_mem hp).1
  | some i =>
    obtain ⟨j, hj, rfl⟩ := contentBased_mem_some hf hp
    simp only
    rw [List.getD_eq_getElem ms mvDefault hj]
    exact List.getElem_mem hj

theorem contentBased_scores_nonneg {ms : List Movie} {rs : List Rating} {mid : Int} {n : ℕ}
    (hratings : ∀ r ∈ rs, 0 ≤ r.rating) {p : Movie × ℝ}
    (hp : p ∈ content_based_recommendations ms rs mid n) : 0 ≤ p.2 := by
  cases hf : ms.findIdx? (fun mv => mv.movieId = mid) with
  | none =>
    unfold content_based_recommendations at hp
    simp only [hf] at hp
    exact get_popular_scores_nonneg hratings hp
  | some i =>
    obtain ⟨j, hj, rfl⟩ := contentBased_mem_some hf hp
    exact simIdx_nonneg ms i j

theorem contentBased_scores_le_one {ms : List Movie} {rs : List Rating} {mid : Int} {n : ℕ}
    (hratings : ∀ r ∈ rs, r.rating ≤ 5) {p : Movie × ℝ}
    (hp : p ∈ content_based_recommendations ms rs mid n) : p.2 ≤ 1 := by
  cases hf : ms.findIdx? (fun mv => mv.movieId = mid) with
  | none =>
    unfold content_based_recommendations at hp
    simp only [hf] at hp
    exact get_popular_scores_le_one hratings hp
  | some i =>
    obtain ⟨j, hj, rfl⟩ := contentBased_mem_some hf hp
    exact simIdx_le_one ms i j

theorem nodup_map_getD_ids {ms : List Movie} (hnodup : (ms.map Movie.movieId).Nodup)
    {l : List (ℕ × ℝ)} (hl : (l.map Prod.fst).Nodup) (hbound : ∀ q ∈ l, q.1 < ms.length) :
    (l.map (fun q => (ms.getD q.1 mvDefault).movieId)).Nodup := by
  have heq : l.map (fun q => (ms.getD q.1 mvDefault).movieId) =
      (l.map Prod.fst).map (fun j => (ms.getD j mvDefault).movieId) :=
    (List.map_map (fun j => (ms.getD j mvDefault).movieId) Prod.fst l).symm
  rw [heq]
  refine List.Nodup.map_on ?_ hl
  intro x hx y hy hxy
  obtain ⟨qx, hqx, rfl⟩ := List.mem_map.mp hx
  obtain ⟨qy, hqy, rfl⟩ := List.mem_map.mp hy
  have hbx := hbound qx hqx
  have hby := hbound qy hqy
  rw [List.getD_eq_getElem ms mvDefault hbx, List.getD_eq_getElem ms mvDefault hby] at hxy
  have hbx' : qx.1 < (ms.map Movie.movieId).length := by simpa using hbx
  have hby' : qy.1 < (ms.map Movie.movieId).length := by simpa using hby
  rw [← List.getElem_map Movie.movieId (h := hbx'), ← List.getElem_map Movie.movieId (h := hby')]
    at hxy
  exact (hnodup.getElem_inj_iff).mp hxy

theorem contentBased_ids_nodup {ms : List Movie} (rs : List Rating) (mid : Int) (n : ℕ)
    (hnodup : (ms.map Movie.movieId).Nodup) :
    ((content_based_recommendations ms rs mid n).map (fun p => p.1.movieId)).Nodup := by
  unfold content_based_recommendations
  cases hf : ms.findIdx? (fun mv => mv.movieId = mid) with
  | none => exact get_popular_ids_nodup rs n hnodup
  | some i =>
    simp only [List.map_map]
    have hsub : ((((sortDescBy (fun p : ℕ × ℝ => p.2)
        ((List.range ms.length).map (fun j => (j, simIdx ms i j)))).drop 1).take n)).Sublist
        (sortDescBy (fun p : ℕ × ℝ => p.2)
          ((List.range ms.length).map (fun j => (j, simIdx ms i j)))) :=
      (List.take_sublist _ _).trans (List.drop_sublist _ _)
    have h3 : (((List.range ms.length).map (fun j => (j, simIdx ms i j))).map Prod.fst) =
        List.range ms.length := by
      simp [List.map_map, Function.comp_def]
    have h4 : ((sortDescBy (fun p : ℕ × ℝ => p.2)
        ((List.range ms.length).map (fun j => (j, simIdx ms i j)))).map Prod.fst).Nodup := by
      refine (((perm_sortDescBy (fun p : ℕ × ℝ => p.2) _).map Prod.fst).nodup_iff).mpr ?_
      rw [h3]
      exact List.nodup_range _
    have hfst := List.Nodup.sublist (hsub.map Prod.fst) h4
    refine nodup_map_getD_ids hnodup hfst ?_
    intro q hq
    have hq1 : q ∈ (List.range ms.length).map (fun j => (j, simIdx ms i j)) :=
      mem_sortDescBy.mp (hsub.subset hq)
    obtain ⟨j, hj, rfl⟩ := List.mem_map.mp hq1
    exact List.mem_range.mp hj

/-! Further `upsert` algebra and facts about the collaborative strategy. -/

theorem upsert_append_left {V : Type} [AddZeroClass V] {d z : List (Int × V)} {k : Int} (v : V)
    (h : k ∈ d.map Prod.fst) : upsert (d ++ z) k v = upsert d k v ++ z := by
  induction d with
  | nil => simp at h
  | cons p rest ih =>
    by_cases hk : p.1 = k
    · simp [upsert, hk]
    · simp only [List.map_cons, List.mem_cons] at h
      rcases h with h | h
      · exact absurd h.symm hk
      · simp [upsert, hk, ih h]

theorem upsert_append_right {V : Type} [AddZeroClass V] {d z : List (Int × V)} {k : Int}
    (v : V) (h : k ∉ d.map Prod.fst) : upsert (d ++ z) k v = d ++ upsert z k v := by
  induction d with
  | nil => rfl
  | cons p rest ih =>
    simp only [List.map_cons, List.mem_cons] at h
    push_neg at h
    simp [upsert, Ne.symm h.1, ih h.2]

theorem upsert_keys_subset {V : Type} [Add V] {d : List (Int × V)} {k : Int} {v : V} :
    ∀ x ∈ (upsert d k v).map Prod.fst, x ∈ d.map Prod.fst ∨ x = k := by
  intro x hx
  obtain ⟨q, hq, rfl⟩ := List.mem_map.mp hx
  rcases mem_upsert hq with h | h | h
  · exact Or.inl (List.mem_map_of_mem _ h)
  · obtain ⟨q', hq', _, rfl⟩ := h
    exact Or.inl (by simpa using List.mem_map_of_mem Prod.fst hq')
  · rw [h]
    exact Or.inr rfl

/-- Folding collaborative rows with weight 0 into an accumulator `d0 ++ zs`
(with `zs` all-zero) only appends further all-zero entries whose keys come
from the folded rows; `d0` is untouched. -/
theorem foldl_upsert_zero_ext (recs : List (Movie × ℝ)) :
    ∀ (d0 zs : List (Int × ℝ)), (∀ z ∈ zs, z.2 = 0) →
    ∃ zs' : List (Int × ℝ),
      recs.foldl (fun d p => upsert d p.1.movieId ((0 : ℝ) * p.2)) (d0 ++ zs) = d0 ++ zs' ∧
      (∀ z ∈ zs', z.2 = 0) ∧
      (∀ z ∈ zs', z.1 ∈ zs.map Prod.fst ∨ ∃ p ∈ recs, z.1 = p.1.movieId) := by
  induction recs with
  | nil =>
    intro d0 zs hz
    exact ⟨zs, by simp, hz, fun z hz' => Or.inl (List.mem_map_of_mem _ hz')⟩
  | cons p rest ih =>
    intro d0 zs hz
    simp only [List.foldl_cons]
    by_cases hk : p.1.movieId ∈ d0.map Prod.fst
    · rw [upsert_append_left _ hk, zero_mul, upsert_zero_of_mem hk]
      obtain ⟨zs', h1, h2, h3⟩ := ih d0 zs hz
      refine ⟨zs', h1, h2, ?_⟩
      intro z hz'
      rcases h3 z hz' with hh | hh
      · exact Or.inl hh
      · obtain ⟨q, hq, hqe⟩ := hh
        exact Or.inr ⟨q, by simp [hq], hqe⟩
    · rw [upsert_append_right _ hk]
      have hz1 : ∀ z ∈ upsert zs p.1.movieId ((0 : ℝ) * p.2), z.2 = 0 := by
        intro z hz'
        rcases mem_upsert hz' with h | h | h
        · exact hz z h
        · obtain ⟨q, hq, _, rfl⟩ := h
          simp [hz q hq]
        · rw [h]
          simp
      obtain ⟨zs', h1, h2, h3⟩ := ih d0 _ hz1
      refine ⟨zs', h1, h2, ?_⟩
      intro z hz'
      rcases h3 z hz' with hh | hh
      · rcases upsert_keys_subset z.1 hh with h4 | h4
        · exact Or.inl h4
        · exact Or.inr ⟨p, by simp, h4⟩
      · obtain ⟨q, hq, hqe⟩ := hh
        exact Or.inr ⟨q, by simp [hq], hqe⟩

theorem neighborBlock_mem {ms : List Movie} {rs : List Rating} {mid : Int} {k : ℕ}
    {p : Movie × ℝ} (hp : p ∈ neighborBlock ms rs mid k) :
    p.1 ∈ ms ∧ ∃ c, p.2 = 1 - (1 - collabSim rs mid c) := by
  unfold neighborBlock at hp
  obtain ⟨q, hq, heq⟩ := List.mem_filterMap.mp hp
  obtain ⟨mv, hfind, hmv⟩ := Option.map_eq_some'.mp heq
  have hq1 : q ∈ (movieCols rs).map (fun c => (c, 1 - collabSim rs mid c)) :=
    mem_sortAscBy.mp (List.take_subset _ _ (List.drop_subset _ _ hq))
  obtain ⟨c, _, rfl⟩ := List.mem_map.mp hq1
  subst hmv
  exact ⟨List.mem_of_find?_eq_some hfind, c, rfl⟩

theorem collab_mem_catalog {ms : List Movie} {rs : List Rating} {mids : List Int} {k : ℕ}
    {p : Movie × ℝ} (hp : p ∈ collaborative_filtering_recommendations ms rs mids k) :
    p.1 ∈ ms := by
  unfold collaborative_filtering_recommendations at hp
  split at hp
  · exact (get_popular_mem hp).1
  · have hpool := mem_of_mem_dedupByKey
      (mem_sortDescBy.mp (List.take_subset _ _ hp))
    obtain ⟨mid, _, hpin⟩ := List.mem_flatMap.mp hpool
    split at hpin
    · exact (neighborBlock_mem hpin).1
    · simp at hpin

theorem collab_ids_nodup {ms : List Movie} (rs : List Rating) (mids : List Int) (k : ℕ)
    (hnodup : (ms.map Movie.movieId).Nodup) :
    ((collaborative_filtering_recommendations ms rs mids k).map
      (fun p => p.1.movieId)).Nodup := by
  unfold collaborative_filtering_recommendations
  split
  · exact get_popular_ids_nodup rs k hnodup
  · refine List.Nodup.sublist ((List.take_sublist _ _).map _) ?_
    refine (((perm_sortDescBy (fun p : Movie × ℝ => p.2) _).map _).nodup_iff).mpr ?_
    exact nodup_keys_dedupByKey _ _

/-! Claim C8: hybrid with the content weight 1.0 and the collaborative
weight 0.0 ranks exactly like the content-based strategy, apart from
zero-score padding appended by the collaborative rows. -/

set_option maxHeartbeats 1600000 in
/-- C8: for a non-empty seed list, `hybrid(ids, n, 1.0, 0.0)` returns the
ids of `content_based(ids[0], n)` as a prefix, in the same order (the
collaborative rows only add zero-weighted entries after them), and never
more than `n` rows in total. -/
theorem C8_hybrid_content_weight_only (ms : List Movie) (rs : List Rating) (m0 : Int)
    (mids : List Int) (n : ℕ)
    (hnodup : (ms.map Movie.movieId).Nodup)
    (hratings : ∀ r ∈ rs, 0 ≤ r.rating) :
    (∃ t, (hybrid_recommendations ms rs (m0 :: mids) n 1 0).map (fun p => p.1.movieId) =
      (content_based_recommendations ms rs m0 n).map (fun p => p.1.movieId) ++ t) ∧
    (hybrid_recommendations ms rs (m0 :: mids) n 1 0).length ≤ n := by
  have hcd : hybridContentDict ms rs (m0 :: mids) n 1 =
      (content_based_recommendations ms rs m0 (n * 2)).map (fun p => (p.1.movieId, p.2)) := by
    unfold hybridContentDict
    show (content_based_recommendations ms rs m0 (n * 2)).foldl
        (fun d p => upsert d p.1.movieId ((1 : ℝ) * p.2)) [] = _
    rw [foldl_upsert_map (contentBased_ids_nodup rs m0 (n * 2) hnodup)]
    simp only [one_mul]
  have hdict : ∃ zs : List (Int × ℝ), hybridDict ms rs (m0 :: mids) n 1 0 =
      (content_based_recommendations ms rs m0 (n * 2)).map (fun p => (p.1.movieId, p.2)) ++ zs ∧
      (∀ z ∈ zs, z.2 = 0) ∧ (∀ z ∈ zs, z.1 ∈ ms.map Movie.movieId) := by
    unfold hybridDict
    by_cases hc : collaborative_filtering_recommendations ms rs (m0 :: mids) (n * 2) = []
    · rw [if_pos hc, hcd]
      exact ⟨[], by simp, by simp, by simp⟩
    · rw [if_neg hc, hcd]
      obtain ⟨zs, h1, h2, h3⟩ := foldl_upsert_zero_ext
        (collaborative_filtering_recommendations ms rs (m0 :: mids) (n * 2))
        ((content_based_recommendations ms rs m0 (n * 2)).map (fun p => (p.1.movieId, p.2)))
        [] (by simp)
      rw [List.append_nil] at h1
      refine ⟨zs, h1, h2, ?_⟩
      intro z hz
      rcases h3 z hz with h | h
      · simp at h
      · obtain ⟨p, hp, hpe⟩ := h
        exact hpe ▸ List.mem_map_of_mem Movie.movieId (collab_mem_catalog hp)
  obtain ⟨zs, hd1, hz0, hzc⟩ := hdict
  have hsorted_content : ((content_based_recommendations ms rs m0 (n * 2)).map
      (fun p => (p.1.movieId, p.2))).Sorted (fun a b : Int × ℝ => b.2 ≤ a.2) := by
    refine List.Pairwise.map _ ?_ (sorted_contentBased ms rs m0 (n * 2))
    intro a b hab
    exact hab
  have hsortapp : sortDescBy (fun q : Int × ℝ => q.2)
      ((content_based_recommendations ms rs m0 (n * 2)).map (fun p => (p.1.movieId, p.2)) ++ zs) =
      (content_based_recommendations ms rs m0 (n * 2)).map (fun p => (p.1.movieId, p.2)) ++ zs := by
    rw [sortDescBy_append_const (c := 0) ?_ ?_]
    · rw [sortDescBy_eq_self hsorted_content]
    · exact hz0
    · intro x hx
      obtain ⟨p, hp, rfl⟩ := List.mem_map.mp hx
      exact contentBased_scores_nonneg hratings hp
  have hfind : ∀ q ∈ ((content_based_recommendations ms rs m0 (n * 2)).map
      (fun p => (p.1.movieId, p.2)) ++ zs).take n,
      ∃ mv : Movie, mv ∈ ms ∧ mv.movieId = q.1 ∧
        ms.find? (fun x => decide (x.movieId = q.1)) = some mv := by
    intro q hq
    rcases List.mem_append.mp (List.take_subset _ _ hq) with h | h
    · obtain ⟨p, hp, rfl⟩ := List.mem_map.mp h
      have hmem := contentBased_mem_catalog hp
      exact ⟨p.1, hmem, rfl, find?_movieId_of_nodup hnodup hmem⟩
    · obtain ⟨mv, hmv, hmvid⟩ := List.mem_map.mp (hzc q h)
      refine ⟨mv, hmv, hmvid, ?_⟩
      have hf := find?_movieId_of_nodup hnodup hmv
      rwa [hmvid] at hf
  have hrows : hybridRows ms rs (m0 :: mids) n 1 0 =
      (((content_based_recommendations ms rs m0 (n * 2)).map
        (fun p => (p.1.movieId, p.2)) ++ zs).take n).map (fun q =>
          ((ms.find? (fun x => decide (x.movieId = q.1))).getD mvDefault, q.2)) := by
    unfold hybridRows
    rw [hd1, hsortapp]
    refine filterMap_eq_map_of_forall_some ?_
    intro q hq
    obtain ⟨mv, _, _, hfq⟩ := hfind q hq
    rw [hfq]
    rfl
  have hrow_ids : (hybridRows ms rs (m0 :: mids) n 1 0).map (fun p => p.1.movieId) =
      (((content_based_recommendations ms rs m0 (n * 2)).map
        (fun p => (p.1.movieId, p.2)) ++ zs).take n).map Prod.fst := by
    rw [hrows, List.map_map]
    refine List.map_congr_left ?_
    intro q hq
    obtain ⟨mv, _, hmvid, hfq⟩ := hfind q hq
    simp [Function.comp, hfq, hmvid]
  have hcontent_ids : (((content_based_recommendations ms rs m0 (n * 2)).map
      (fun p => (p.1.movieId, p.2))).take n).map Prod.fst =
      (content_based_recommendations ms rs m0 n).map (fun p => p.1.movieId) := by
    rw [← List.map_take, List.map_map, contentBased_take (show n ≤ n * 2 by omega)]
    rfl
  have hids_eq : ((((content_based_recommendations ms rs m0 (n * 2)).map
      (fun p => (p.1.movieId, p.2)) ++ zs).take n).map Prod.fst) =
      (content_based_recommendations ms rs m0 n).map (fun p => p.1.movieId) ++
        ((zs.take (n - ((content_based_recommendations ms rs m0 (n * 2)).map
          (fun p => (p.1.movieId, p.2))).length)).map Prod.fst) := by
    rw [List.take_append_eq_append_take, List.map_append, hcontent_ids]
  by_cases hrnil : hybridRows ms rs (m0 :: mids) n 1 0 = []
  · have htake0 : (((content_based_recommendations ms rs m0 (n * 2)).map
        (fun p => (p.1.movieId, p.2)) ++ zs).take n) = [] := by
      rw [hrows] at hrnil
      exact List.map_eq_nil_iff.mp hrnil
    have hcontentN : (content_based_recommendations ms rs m0 n).map (fun p => p.1.movieId)
        = [] := by
      rcases List.take_eq_nil_iff.mp htake0 with h0 | happ
      · subst h0
        rw [contentBased_take (le_refl 0)]
        rfl
      · have hc2 : content_based_recommendations ms rs m0 (n * 2) = [] :=
          List.map_eq_nil_iff.mp (List.append_eq_nil.mp happ).1
        rw [contentBased_take (show n ≤ n * 2 by omega), hc2, List.take_nil]
        rfl
    unfold hybrid_recommendations
    rw [if_pos hrnil]
    constructor
    · exact ⟨(get_popular_movies ms rs n).map (fun p => p.1.movieId),
        by rw [hcontentN]; rfl⟩
    · exact get_popular_length_le ms rs n
  · unfold hybrid_recommendations
    rw [if_neg hrnil]
    constructor
    · exact ⟨(zs.take (n - ((content_based_recommendations ms rs m0 (n * 2)).map
        (fun p => (p.1.movieId, p.2))).length)).map Prod.fst,
        by rw [hrow_ids, hids_eq]⟩
    · rw [hrows]
      simp only [List.length_map, List.length_take]
      exact min_le_left _ _

/-- Witness for C8 at concrete data. -/
theorem C8_witness :
    ((catalog3.map Movie.movieId).Nodup ∧ ∀ r ∈ ratings10, 0 ≤ r.rating) ∧
    ((∃ t, (hybrid_recommendations catalog3 ratings10 [2] 2 1 0).map (fun p => p.1.movieId) =
      (content_based_recommendations catalog3 ratings10 2 2).map (fun p => p.1.movieId) ++ t) ∧
    (hybrid_recommendations catalog3 ratings10 [2] 2 1 0).length ≤ 2) :=
  ⟨⟨by decide, by decide⟩,
    C8_hybrid_content_weight_only catalog3 ratings10 2 [] 2 (by decide) (by decide)⟩

/-! Claim C9: the score range of every strategy. The caller-supplied hybrid
weights break the `[0,1]` range in general (counterexample above); under
nonnegative weights summing to at most one, and ratings within `[0,5]`,
every strategy's scores stay in `[0,1]`. -/

theorem uiVal_nonneg {rs : List Rating} (h : ∀ r ∈ rs, 0 ≤ r.rating) (u m : Int) :
    0 ≤ uiVal rs u m := by
  unfold uiVal
  split
  · exact le_refl 0
  · refine div_nonneg (List.sum_nonneg ?_) (Nat.cast_nonneg _)
    intro x hx
    obtain ⟨r, hr, _, _, hrx⟩ := userRatingsFor_mem hx
    exact hrx ▸ h r hr

theorem colDot_nonneg {rs : List Rating} (h : ∀ r ∈ rs, 0 ≤ r.rating) (m1 m2 : Int) :
    0 ≤ colDot rs m1 m2 := by
  apply List.sum_nonneg
  intro x hx
  obtain ⟨v, _, rfl⟩ := List.mem_map.mp hx
  exact mul_nonneg (uiVal_nonneg h v m1) (uiVal_nonneg h v m2)

theorem colDot_self_nonneg (rs : List Rating) (m : Int) : 0 ≤ colDot rs m m := by
  apply List.sum_nonneg
  intro x hx
  obtain ⟨v, _, rfl⟩ := List.mem_map.mp hx
  exact mul_self_nonneg _

theorem ratCast_list_sum (l : List ℚ) :
    ((l.sum : ℚ) : ℝ) = (l.map (fun q : ℚ => (q : ℝ))).sum := by
  induction l with
  | nil => simp
  | cons x xs ih => simp [ih]

theorem colDot_eq_finset_sum (rs : List Rating) (m1 m2 : Int) :
    ((colDot rs m1 m2 : ℚ) : ℝ) =
      ∑ v ∈ (userIds rs).toFinset,
        ((uiVal rs v m1 : ℚ) : ℝ) * ((uiVal rs v m2 : ℚ) : ℝ) := by
  have h1 : ((colDot rs m1 m2 : ℚ) : ℝ) = ((userIds rs).map
      (fun v => ((uiVal rs v m1 : ℚ) : ℝ) * ((uiVal rs v m2 : ℚ) : ℝ))).sum := by
    unfold colDot
    rw [ratCast_list_sum, List.map_map]
    refine congrArg List.sum (List.map_congr_left (fun v _ => ?_))
    simp [Function.comp_def]
  rw [h1]
  exact (List.sum_toFinset _ (nodup_sortedDedup _)).symm

/-- Cauchy-Schwarz for the user-item matrix columns. -/
theorem colDot_le_sqrt_mul_sqrt (rs : List Rating) (m1 m2 : Int) :
    ((colDot rs m1 m2 : ℚ) : ℝ) ≤
      Real.sqrt ((colDot rs m1 m1 : ℚ) : ℝ) * Real.sqrt ((colDot rs m2 m2 : ℚ) : ℝ) := by
  rw [colDot_eq_finset_sum rs m1 m2, colDot_eq_finset_sum rs m1 m1,
    colDot_eq_finset_sum rs m2 m2]
  have h := Real.sum_mul_le_sqrt_mul_sqrt ((userIds rs).toFinset)
    (fun v => ((uiVal rs v m1 : ℚ) : ℝ)) (fun v => ((uiVal rs v m2 : ℚ) : ℝ))
  calc ∑ v ∈ (userIds rs).toFinset, ((uiVal rs v m1 : ℚ) : ℝ) * ((uiVal rs v m2 : ℚ) : ℝ)
      ≤ Real.sqrt (∑ v ∈ (userIds rs).toFinset, ((uiVal rs v m1 : ℚ) : ℝ) ^ 2) *
        Real.sqrt (∑ v ∈ (userIds rs).toFinset, ((uiVal rs v m2 : ℚ) : ℝ) ^ 2) := h
    _ = _ := by
        congr 1 <;> · congr 1; refine Finset.sum_congr rfl (fun v _ => ?_); ring

theorem collabSim_nonneg {rs : List Rating} (h : ∀ r ∈ rs, 0 ≤ r.rating) (m1 m2 : Int) :
    0 ≤ collabSim rs m1 m2 := by
  unfold collabSim
  exact cosineSim_nonneg (by exact_mod_cast colDot_nonneg h m1 m2)

theorem collabSim_le_one (rs : List Rating) (m1 m2 : Int) : collabSim rs m1 m2 ≤ 1 := by
  unfold collabSim
  exact cosineSim_le_one (by exact_mod_cast colDot_self_nonneg rs m1)
    (by exact_mod_cast colDot_self_nonneg rs m2) (colDot_le_sqrt_mul_sqrt rs m1 m2)

theorem collab_scores_range {ms : List Movie} {rs : List Rating} {mids : List Int} {k : ℕ}
    (h0 : ∀ r ∈ rs, 0 ≤ r.rating) (h5 : ∀ r ∈ rs, r.rating ≤ 5) {p : Movie × ℝ}
    (hp : p ∈ collaborative_filtering_recommendations ms rs mids k) :
    0 ≤ p.2 ∧ p.2 ≤ 1 := by
  unfold collaborative_filtering_recommendations at hp
  split at hp
  · exact ⟨get_popular_scores_nonneg h0 hp, get_popular_scores_le_one h5 hp⟩
  · have hpool := mem_of_mem_dedupByKey (mem_sortDescBy.mp (List.take_subset _ _ hp))
    obtain ⟨mid, _, hpin⟩ := List.mem_flatMap.mp hpool
    split at hpin
    · obtain ⟨_, c, hc⟩ := neighborBlock_mem hpin
      rw [hc, sub_sub_cancel]
      exact ⟨collabSim_nonneg h0 mid c, collabSim_le_one rs mid c⟩
    · simp at hpin

/-- Folding weighted rows with pairwise-distinct ids into a dict whose
values lie in `[0, A + B]` — with the ids still to be processed currently
valued at most `A` — keeps every value in `[0, A + B]` when each increment
lies in `[0, B]`. -/
theorem foldl_upsert_bound {w A B : ℝ} (hA : 0 ≤ A) (hB : 0 ≤ B) :
    ∀ (recs : List (Movie × ℝ)) (d : List (Int × ℝ)),
    (recs.map (fun p => p.1.movieId)).Nodup →
    (∀ p ∈ recs, 0 ≤ w * p.2 ∧ w * p.2 ≤ B) →
    (∀ q ∈ d, 0 ≤ q.2 ∧ q.2 ≤ A + B) →
    (∀ q ∈ d, (∃ p ∈ recs, q.1 = p.1.movieId) → q.2 ≤ A) →
    ∀ q ∈ recs.foldl (fun d p => upsert d p.1.movieId (w * p.2)) d,
      0 ≤ q.2 ∧ q.2 ≤ A + B := by
  intro recs
  induction recs with
  | nil =>
    intro d _ _ hd _ q hq
    exact hd q hq
  | cons p rest ih =>
    intro d hnodup hrecs hd hkey q hq
    simp only [List.map_cons, List.nodup_cons] at hnodup
    simp only [List.foldl_cons] at hq
    have hpw := hrecs p (by simp)
    refine ih (upsert d p.1.movieId (w * p.2)) hnodup.2
      (fun r hr => hrecs r (by simp [hr])) ?_ ?_ q hq
    · intro q' hq'
      rcases mem_upsert hq' with h | h | h
      · exact hd q' h
      · obtain ⟨q0, hq0, hq0k, rfl⟩ := h
        have hle := hkey q0 hq0 ⟨p, by simp, hq0k⟩
        have hnn := (hd q0 hq0).1
        refine ⟨?_, ?_⟩
        · show 0 ≤ q0.2 + w * p.2
          linarith [hpw.1]
        · show q0.2 + w * p.2 ≤ A + B
          linarith [hpw.2]
      · subst h
        refine ⟨hpw.1, ?_⟩
        show w * p.2 ≤ A + B
        linarith [hpw.2]
    · intro q' hq' hex
      obtain ⟨p', hp', hkeq⟩ := hex
      rcases mem_upsert hq' with h | h | h
      · exact hkey q' h ⟨p', by simp [hp'], hkeq⟩
      · obtain ⟨q0, hq0, hq0k, rfl⟩ := h
        exfalso
        apply hnodup.1
        have h1 : q0.1 = p'.1.movieId := hkeq
        have h2 : p.1.movieId = p'.1.movieId := by rw [← hq0k]; exact h1
        rw [h2]
        exact List.mem_map_of_mem (fun r => r.1.movieId) hp'
      · exfalso
        apply hnodup.1
        rw [h] at hkeq
        have h2 : p.1.movieId = p'.1.movieId := hkeq
        rw [h2]
        exact List.mem_map_of_mem (fun r => r.1.movieId) hp'

theorem hybridContentDict_values {ms : List Movie} {rs : List Rating} {mids : List Int}
    {n : ℕ} {cw : ℝ} (hnodup : (ms.map Movie.movieId).Nodup)
    (h0 : ∀ r ∈ rs, 0 ≤ r.rating) (h5 : ∀ r ∈ rs, r.rating ≤ 5) (hcw : 0 ≤ cw) :
    ∀ q ∈ hybridContentDict ms rs mids n cw, 0 ≤ q.2 ∧ q.2 ≤ cw := by
  cases mids with
  | nil =>
    intro q hq
    simp [hybridContentDict] at hq
  | cons m0 rest =>
    intro q hq
    have hcd : hybridContentDict ms rs (m0 :: rest) n cw =
        (content_based_recommendations ms rs m0 (n * 2)).map
          (fun p => (p.1.movieId, cw * p.2)) := by
      show (content_based_recommendations ms rs m0 (n * 2)).foldl
          (fun d p => upsert d p.1.movieId (cw * p.2)) [] = _
      exact foldl_upsert_map (contentBased_ids_nodup rs m0 (n * 2) hnodup)
    rw [hcd] at hq
    obtain ⟨p, hp, rfl⟩ := List.mem_map.mp hq
    refine ⟨mul_nonneg hcw (contentBased_scores_nonneg h0 hp), ?_⟩
    calc cw * p.2 ≤ cw * 1 :=
        mul_le_mul_of_nonneg_left (contentBased_scores_le_one h5 hp) hcw
      _ = cw := mul_one cw

theorem hybridDict_values {ms : List Movie} {rs : List Rating} {mids : List Int}
    {n : ℕ} {cw colw : ℝ} (hnodup : (ms.map Movie.movieId).Nodup)
    (h0 : ∀ r ∈ rs, 0 ≤ r.rating) (h5 : ∀ r ∈ rs, r.rating ≤ 5)
    (hcw : 0 ≤ cw) (hcolw : 0 ≤ colw) :
    ∀ q ∈ hybridDict ms rs mids n cw colw, 0 ≤ q.2 ∧ q.2 ≤ cw + colw := by
  unfold hybridDict
  split
  · intro q hq
    have hb := hybridContentDict_values hnodup h0 h5 hcw q hq
    exact ⟨hb.1, hb.2.trans (by linarith)⟩
  · refine foldl_upsert_bound hcw hcolw _ _
      (collab_ids_nodup rs mids (n * 2) hnodup) ?_ ?_ ?_
    · intro p hp
      have hr := collab_scores_range h0 h5 hp
      refine ⟨mul_nonneg hcolw hr.1, ?_⟩
      calc colw * p.2 ≤ colw * 1 := mul_le_mul_of_nonneg_left hr.2 hcolw
        _ = colw := mul_one colw
    · intro q hq
      have hb := hybridContentDict_values hnodup h0 h5 hcw q hq
      exact ⟨hb.1, hb.2.trans (by linarith)⟩
    · intro q hq _
      exact (hybridContentDict_values hnodup h0 h5 hcw q hq).2

theorem hybrid_scores_range {ms : List Movie} {rs : List Rating} {mids : List Int}
    {n : ℕ} {cw colw : ℝ} (hnodup : (ms.map Movie.movieId).Nodup)
    (h0 : ∀ r ∈ rs, 0 ≤ r.rating) (h5 : ∀ r ∈ rs, r.rating ≤ 5)
    (hcw : 0 ≤ cw) (hcolw : 0 ≤ colw) (hsum : cw + colw ≤ 1) {p : Movie × ℝ}
    (hp : p ∈ hybrid_recommendations ms rs mids n cw colw) : 0 ≤ p.2 ∧ p.2 ≤ 1 := by
  unfold hybrid_recommendations at hp
  split at hp
  · exact ⟨get_popular_scores_nonneg h0 hp, get_popular_scores_le_one h5 hp⟩
  · unfold hybridRows at hp
    obtain ⟨q, hq, heq⟩ := List.mem_filterMap.mp hp
    obtain ⟨mv, _, hmv⟩ := Option.map_eq_some'.mp heq
    have hqd : q ∈ hybridDict ms rs mids n cw colw :=
      mem_sortDescBy.mp (List.take_subset _ _ hq)
    have hb := hybridDict_values hnodup h0 h5 hcw hcolw q hqd
    rw [← hmv]
    exact ⟨hb.1, hb.2.trans hsum⟩

theorem user_scores_range {ms : List Movie} {rs : List Rating} {u : Int} {n : ℕ}
    (h0 : ∀ r ∈ rs, 0 ≤ r.rating) (h5 : ∀ r ∈ rs, r.rating ≤ 5) {p : Movie × ℝ}
    (hp : p ∈ get_user_recommendations ms rs u n) : 0 ≤ p.2 ∧ p.2 ≤ 1 := by
  unfold get_user_recommendations at hp
  split at hp
  · split at hp
    · exact ⟨get_popular_scores_nonneg h0 hp, get_popular_scores_le_one h5 hp⟩
    · exact collab_scores_range h0 h5 hp
  · exact ⟨get_popular_scores_nonneg h0 hp, get_popular_scores_le_one h5 hp⟩

/-- C9 (amended): with ratings in `[0,5]`, a duplicate-free catalog, and
nonnegative hybrid weights summing to at most `1`, every similarity score
returned by each of the five strategies (popular, content-based,
collaborative, hybrid, for-user) lies in `[0,1]`. Unconstrained
caller-supplied weights break the range (see the counterexample). -/
theorem C9_scores_in_unit_interval (ms : List Movie) (rs : List Rating)
    (mid u : Int) (mids : List Int) (n : ℕ) (cw colw : ℝ)
    (hnodup : (ms.map Movie.movieId).Nodup)
    (h0 : ∀ r ∈ rs, 0 ≤ r.rating) (h5 : ∀ r ∈ rs, r.rating ≤ 5)
    (hcw : 0 ≤ cw) (hcolw : 0 ≤ colw) (hsum : cw + colw ≤ 1) :
    (∀ p ∈ get_popular_movies ms rs n, 0 ≤ p.2 ∧ p.2 ≤ 1) ∧
    (∀ p ∈ content_based_recommendations ms rs mid n, 0 ≤ p.2 ∧ p.2 ≤ 1) ∧
    (∀ p ∈ collaborative_filtering_recommendations ms rs mids n, 0 ≤ p.2 ∧ p.2 ≤ 1) ∧
    (∀ p ∈ hybrid_recommendations ms rs mids n cw colw, 0 ≤ p.2 ∧ p.2 ≤ 1) ∧
    (∀ p ∈ get_user_recommendations ms rs u n, 0 ≤ p.2 ∧ p.2 ≤ 1) :=
  ⟨fun _ hp => ⟨get_popular_scores_nonneg h0 hp, get_popular_scores_le_one h5 hp⟩,
    fun _ hp => ⟨contentBased_scores_nonneg h0 hp, contentBased_scores_le_one h5 hp⟩,
    fun _ hp => collab_scores_range h0 h5 hp,
    fun _ hp => hybrid_scores_range hnodup h0 h5 hcw hcolw hsum hp,
    fun _ hp => user_scores_range h0 h5 hp⟩

/-- Witness for C9 at concrete data with the default weights 0.6/0.4. -/
theorem C9_witness :
    ((catalog3.map Movie.movieId).Nodup ∧ (∀ r ∈ ratings10, 0 ≤ r.rating) ∧
      (∀ r ∈ ratings10, r.rating ≤ 5) ∧ (0 : ℝ) ≤ 3 / 5 ∧ (0 : ℝ) ≤ 2 / 5 ∧
      (3 / 5 : ℝ) + 2 / 5 ≤ 1) ∧
    ((∀ p ∈ get_popular_movies catalog3 ratings10 2, 0 ≤ p.2 ∧ p.2 ≤ 1) ∧
     (∀ p ∈ content_based_recommendations catalog3 ratings10 1 2, 0 ≤ p.2 ∧ p.2 ≤ 1) ∧
     (∀ p ∈ collaborative_filtering_recommendations catalog3 ratings10 [1] 2,
        0 ≤ p.2 ∧ p.2 ≤ 1) ∧
     (∀ p ∈ hybrid_recommendations catalog3 ratings10 [1] 2 (3 / 5) (2 / 5),
        0 ≤ p.2 ∧ p.2 ≤ 1) ∧
     (∀ p ∈ get_user_recommendations catalog3 ratings10 1 2, 0 ≤ p.2 ∧ p.2 ≤ 1)) :=
  ⟨⟨by decide, by decide, by decide, by norm_num, by norm_num, by norm_num⟩,
    C9_scores_in_unit_interval catalog3 ratings10 1 1 [1] 2 (3 / 5) (2 / 5)
      (by decide) (by decide) (by decide) (by norm_num) (by norm_num) (by norm_num)⟩

end RecEngine
